import Mathlib

/-!
Verification of the hierarchical storage core of the cmed-server repository.

The TypeScript sources are embedded shallowly:

* `Folder` / `FileRow` mirror the rows of the `folders` and `files` tables
  created in `src/config/database.ts` (timestamps are omitted: no verified
  property mentions them).
* The controllers in `src/controllers/fileController.ts` and
  `src/controllers/folderController.ts` become pure functions from a `DB`
  state to a result, a new `DB` state and (where relevant) a trace of the
  primitive store/cache events they perform, in source order.
* The Redis cache of `src/config/redis.ts` is a key/value association list.
  The string keys built by template literals in the source are injective in
  their numeric arguments per key shape, so they are modelled by the
  inductive type `CKey` with one constructor per key shape.
* MySQL behaviour that the source relies on is modelled where the claims
  depend on it: the `ON DELETE CASCADE` foreign keys of the schema
  (`cascadeDeleteFolders`), the foreign-key validity check on
  `parent_folder_id`, and the fact that every connection obtained from the
  pool has its own independent transaction.
* JavaScript truthiness on `number | null` values (`if (folderId)`) is
  modelled by `truthy : Option Nat → Bool`, which is `false` on `none`
  and on `some 0`.
-/

namespace Cmed

/-- A row of the `folders` table (`src/config/database.ts`). -/
structure Folder where
  folder_id : Nat
  user_id : Nat
  parent_folder_id : Option Nat
  name : String
  deriving Repr, DecidableEq

/-- A row of the `files` table (`src/config/database.ts`). -/
structure FileRow where
  file_id : Nat
  user_id : Nat
  folder_id : Option Nat
  name : String
  file_path : String
  mime_type : String
  size : Nat
  deriving Repr, DecidableEq

/-- JavaScript truthiness of a `number | null` value: `null` and `0` are
falsy, every other number is truthy. -/
def truthy : Option Nat → Bool
  | none => false
  | some n => n != 0

/-- The list of folder ids present in a folder table. -/
def ids (fs : List Folder) : List Nat := fs.map Folder.folder_id

/-- The row with a given folder id (the first one, as a SQL point query
would return; with distinct ids it is the unique one). -/
def rowOf (fs : List Folder) (x : Nat) : Option Folder :=
  fs.find? (fun f => f.folder_id == x)

/-- One step up the parent chain: the parent id stored in the row of `x`
(`none` when there is no row or the row is at root level). -/
def parentStep (fs : List Folder) (x : Nat) : Option Nat :=
  (rowOf fs x).bind Folder.parent_folder_id

/-- The `k`-th ancestor of `x` along `parent_folder_id` pointers;
`none` when the chain dies (missing row or root reached) earlier. -/
def ancK (fs : List Folder) : Nat → Nat → Option Nat
  | 0, x => some x
  | k + 1, x =>
    match parentStep fs x with
    | none => none
    | some p => ancK fs k p

/-- The folder forest has no cycles: no chain of parent pointers of
positive length leads from a node back to itself. -/
def Acyclic (fs : List Folder) : Prop :=
  ∀ x k, ancK fs (k + 1) x ≠ some x

/-- Well-formedness of the folder table, as guaranteed by the schema and
by the reachable states of the controllers: distinct primary keys,
foreign-key closure of `parent_folder_id`, positive auto-increment ids,
and the parent of a folder belongs to the same user (every code path that
sets a parent checks it against the same `user_id`). -/
structure WF (fs : List Folder) : Prop where
  nodup : (ids fs).Nodup
  closed : ∀ f ∈ fs, ∀ p, f.parent_folder_id = some p → p ∈ ids fs
  pos : ∀ f ∈ fs, 0 < f.folder_id
  sameOwner : ∀ f ∈ fs, ∀ p, f.parent_folder_id = some p →
    ∀ g ∈ fs, g.folder_id = p → g.user_id = f.user_id

/-- Executable check that every folder reaches a root: the parent chain of
every row dies within `fs.length + 1` steps. Used to discharge `Acyclic`
on concrete tables. -/
def rootedB (fs : List Folder) : Bool :=
  fs.all (fun f => ancK fs (fs.length + 1) f.folder_id == none)

/-- Cache keys of the controllers. -/
inductive CKey where
  | file (fileId : Nat)
  | folderKey (folderId : Nat)
  | folderContents (folderId : Nat)
  | folderSubfolders (folderId : Nat)
  | folderFiles (folderId : Nat)
  | userFolders (userId : Nat)
  | userRootFiles (userId : Nat)
  | userRootSubfolders (userId : Nat)
  | userRootContents (userId : Nat)
  | userFolderTree (userId : Nat)
  deriving Repr, DecidableEq

/-- The detail record built by `fileController.getFileDetails`
(timestamp columns omitted; `last_modified` is the blob mtime when the
blob store has the file, otherwise the unmodelled row timestamp). -/
structure FileDetails where
  id : Nat
  name : String
  size : Nat
  mime_type : String
  folder_id : Option Nat
  last_modified : Option Nat
  deriving Repr, DecidableEq

/-- The per-file record built by `fileController.getFilesInFolder`. -/
structure FileListEntry where
  id : Nat
  name : String
  size : Nat
  mime_type : String
  folder_id : Option Nat
  file_name : String
  deriving Repr, DecidableEq

/-- The per-folder record built by `folderController.getSubfolders`. -/
structure SubfolderEntry where
  id : Nat
  name : String
  parent_folder_id : Option Nat
  deriving Repr, DecidableEq

/-- A node of the sidebar tree built by `folderController.getFolderTree`
(`nodeId`, being `id.toString()`, is omitted). -/
inductive TreeNode where
  | mk (id : Nat) (name : String) (level : Nat)
      (sub_classifications : List TreeNode)
  deriving Repr

def TreeNode.id : TreeNode → Nat
  | .mk i _ _ _ => i

def TreeNode.children : TreeNode → List TreeNode
  | .mk _ _ _ cs => cs

/-- JSON payloads held by the cache (dynamic values, as in JS). -/
inductive CVal where
  | vFileDetails (d : FileDetails)
  | vFileList (l : List FileListEntry)
  | vSubfolders (l : List SubfolderEntry)
  | vTree (t : List TreeNode)
  deriving Repr

/-- A blob on disk: its path (relative, as stored in `file_path`) and its
mtime (the only piece of `stat` metadata a claim mentions). -/
structure Blob where
  path : String
  mtime : Nat
  deriving Repr, DecidableEq

abbrev Cache := List (CKey × CVal)

/-- `cacheMiddleware.get` -/
def cacheGet (c : Cache) (k : CKey) : Option CVal :=
  (c.find? (fun e => e.1 == k)).map Prod.snd

/-- `cacheMiddleware.set` (TTL not modelled; overwrites the key) -/
def cacheSet (c : Cache) (k : CKey) (v : CVal) : Cache :=
  (k, v) :: c.filter (fun e => e.1 != k)

/-- `cacheMiddleware.delete` -/
def cacheDelete (c : Cache) (k : CKey) : Cache :=
  c.filter (fun e => e.1 != k)

/-- `cacheMiddleware.deleteByPattern` applied to the only pattern the
source uses, `user:ID:folder_tree*`; the sole key of that shape is the
tree key of that user. -/
def cacheDeleteTreePattern (c : Cache) (userId : Nat) : Cache :=
  cacheDelete c (CKey.userFolderTree userId)

/-- The full mutable state: the two metadata tables, the blob store and
the cache. -/
structure DB where
  folders : List Folder
  files : List FileRow
  blobs : List Blob
  cache : Cache
  deriving Repr

/-- Result/error values returned by the controllers; one constructor per
distinct error string in the source. -/
inductive Err where
  | fileNotFound
  | folderNotFound
  | parentFolderNotFound
  | newParentNotFound
  | folderAlreadyExists
  | nameAlreadyExists
  | nameAlreadyExistsInDestination
  | cannotMoveToItself
  | cannotMoveToOwnSubfolder
  | operationFailed
  deriving Repr, DecidableEq

/-- Primitive store/cache events, in the order the controller code awaits
them; used to state ordering properties (claim C5). `evCommit`,
`evRollback` and `evBegin` are the transaction calls on the connection a
controller function obtained from the pool. -/
inductive Ev where
  | evBegin
  | evSelect
  | evInsert
  | evUpdate
  | evDeleteRows
  | evBlobWrite
  | evBlobDelete
  | evCacheDel (k : CKey)
  | evCacheDelPattern (userId : Nat)
  | evCacheSet (k : CKey)
  | evCommit
  | evRollback
  deriving Repr, DecidableEq

/-- `fileController.getFileDetails` (lines 198-244): cache first under key
`file:ID` (no user id in the key), then a user-scoped point query, then
blob `stat`, then cache write. -/
def getFileDetails (db : DB) (userId fileId : Nat) : Except Err CVal × DB :=
  match cacheGet db.cache (CKey.file fileId) with
  | some cached => (Except.ok cached, db)
  | none =>
    match db.files.find? (fun fl => fl.file_id == fileId && fl.user_id == userId) with
    | none => (Except.error Err.fileNotFound, db)
    | some fl =>
      let metadata := (db.blobs.find? (fun b => b.path == fl.file_path)).map Blob.mtime
      let d : FileDetails :=
        { id := fl.file_id, name := fl.name, size := fl.size,
          mime_type := fl.mime_type, folder_id := fl.folder_id,
          last_modified := metadata }
      (Except.ok (CVal.vFileDetails d),
        { db with cache := cacheSet db.cache (CKey.file fileId) (CVal.vFileDetails d) })

/-- `fileController.getFilesInFolder` (lines 247-289): the cache key and
the SQL filter both branch on the JS truthiness of `folderId`, so `0`
takes the `null` branch. -/
def getFilesInFolder (db : DB) (userId : Nat) (folderId : Option Nat) :
    Except Err CVal × DB :=
  let cacheKey := if truthy folderId then CKey.folderFiles (folderId.getD 0)
                  else CKey.userRootFiles userId
  match cacheGet db.cache cacheKey with
  | some cached => (Except.ok cached, db)
  | none =>
    let rows := (db.files.filter (fun fl => fl.user_id == userId &&
        (if truthy folderId then fl.folder_id == folderId
         else fl.folder_id == none))).mergeSort (fun a b => a.name ≤ b.name)
    let fileList := rows.map (fun fl =>
      { id := fl.file_id, name := fl.name, size := fl.size,
        mime_type := fl.mime_type, folder_id := fl.folder_id,
        file_name := fl.name : FileListEntry })
    (Except.ok (CVal.vFileList fileList),
      { db with cache := cacheSet db.cache cacheKey (CVal.vFileList fileList) })

/-- `folderController.getSubfolders` (lines 643-683): same truthiness
branching as `getFilesInFolder`. -/
def getSubfolders (db : DB) (userId : Nat) (folderId : Option Nat) :
    Except Err CVal × DB :=
  let cacheKey := if truthy folderId then CKey.folderSubfolders (folderId.getD 0)
                  else CKey.userRootSubfolders userId
  match cacheGet db.cache cacheKey with
  | some cached => (Except.ok cached, db)
  | none =>
    let rows := (db.folders.filter (fun f => f.user_id == userId &&
        (if truthy folderId then f.parent_folder_id == folderId
         else f.parent_folder_id == none))).mergeSort (fun a b => a.name ≤ b.name)
    let subfolderList := rows.map (fun f =>
      { id := f.folder_id, name := f.name,
        parent_folder_id := f.parent_folder_id : SubfolderEntry })
    (Except.ok (CVal.vSubfolders subfolderList),
      { db with cache := cacheSet db.cache cacheKey (CVal.vSubfolders subfolderList) })



/-- The id MySQL assigns to an inserted row (`AUTO_INCREMENT`, modelled as
one past the maximum id in the table; the model only relies on freshness
and positivity). -/
def nextFolderId (fs : List Folder) : Nat :=
  (fs.foldl (fun m f => max m f.folder_id) 0) + 1

def nextFileId (fls : List FileRow) : Nat :=
  (fls.foldl (fun m fl => max m fl.file_id) 0) + 1

/-- The recursive `getSubfolders` helper inside
`folderController.deleteFolder` (lines 448-464): every descendant folder
id, depth first, child before its own subtree. The JS recursion is
unbounded; the fuel argument is sufficient whenever the table is acyclic. -/
def collectSubfolderIds (fs : List Folder) : Nat → Nat → List Nat
  | 0, _ => []
  | fuel + 1, parentId =>
    (fs.filter (fun f => f.parent_folder_id == some parentId)).flatMap
      (fun f => f.folder_id :: collectSubfolderIds fs fuel f.folder_id)

/-- One round of the `ON DELETE CASCADE` foreign keys of the schema:
ids of live folders whose parent is dead. -/
def cascadeClosure (fs : List Folder) : Nat → List Nat → List Nat
  | 0, dead => dead
  | n + 1, dead =>
    let more := (fs.filter (fun f =>
      !(dead.contains f.folder_id) &&
      (match f.parent_folder_id with
       | some p => dead.contains p
       | none => false))).map Folder.folder_id
    if more.isEmpty then dead else cascadeClosure fs n (dead ++ more)

/-- `DELETE FROM folders WHERE folder_id IN seed` under the schema of
`src/config/database.ts`: the `ON DELETE CASCADE` foreign keys also remove
every folder row whose parent chain passes through a deleted row and every
file row whose `folder_id` references a deleted folder. -/
def deleteFolderRowsCascade (fs : List Folder) (fls : List FileRow)
    (seed : List Nat) : List Folder × List FileRow :=
  let dead := cascadeClosure fs fs.length seed
  ((fs.filter (fun f => !(dead.contains f.folder_id))),
   (fls.filter (fun fl =>
     match fl.folder_id with
     | some q => !(dead.contains q)
     | none => true)))

/-- The recursive `isDescendant` helper inside
`folderController.moveFolder` (lines 726-741): true when `targetId` lies
in the subtree rooted at `checkId` (including `checkId` itself). The JS
recursion is unbounded; it terminates exactly on acyclic tables, where
fuel `fs.length + 1` computes the same answer. -/
def isDescendant (fs : List Folder) : Nat → Nat → Nat → Bool
  | 0, _, _ => false
  | fuel + 1, checkId, targetId =>
    checkId == targetId ||
    (fs.filter (fun f => f.parent_folder_id == some checkId)).any
      (fun f => isDescendant fs fuel f.folder_id targetId)

/-- `fileController.deleteFile` (lines 147-195). The connection it takes
from the pool carries its own transaction, which commits before the
function returns, so the state change is applied directly. The blob
delete is best effort (`deleteFile` in `src/services/fileStorage.ts`
returns a flag that is ignored). -/
def deleteFile (db : DB) (userId fileId : Nat) :
    Except Err Unit × DB × List Ev :=
  match db.files.find? (fun fl => fl.file_id == fileId && fl.user_id == userId) with
  | none =>
    (Except.error Err.fileNotFound, db, [Ev.evBegin, Ev.evSelect, Ev.evRollback])
  | some file =>
    let blobs1 := db.blobs.filter (fun b => b.path != file.file_path)
    let files1 := db.files.filter (fun fl => fl.file_id != fileId)
    let c1 := cacheDelete db.cache (CKey.file fileId)
    let c2 := if truthy file.folder_id then
        cacheDelete c1 (CKey.folderContents (file.folder_id.getD 0))
      else c1
    let c3 := cacheDelete c2 (CKey.userFolders userId)
    let folderCacheEvs := if truthy file.folder_id then
        [Ev.evCacheDel (CKey.folderContents (file.folder_id.getD 0))]
      else []
    (Except.ok (),
     { db with files := files1, blobs := blobs1, cache := c3 },
     [Ev.evBegin, Ev.evSelect, Ev.evBlobDelete, Ev.evDeleteRows,
      Ev.evCacheDel (CKey.file fileId)] ++ folderCacheEvs ++
     [Ev.evCacheDel (CKey.userFolders userId), Ev.evCommit])

/-- The relative path `saveFile` in `src/services/fileStorage.ts` stores
in the metadata row: the full path minus the `UPLOAD_DIR` prefix (see the
`saveFile` model below for the full blob-store behaviour). -/
def savedRelPath (userId : Nat) (blobId ext : String) : String :=
  "/" ++ ("user_" ++ toString userId) ++ "/" ++ blobId.take 3 ++ "/" ++
    (blobId.drop 3).take 3 ++ "/" ++ (blobId ++ ext)

/-- `path.extname`: the suffix of the name from its last dot, empty when
the name has no dot or when the only dot is the leading character (the
argument is a plain file name without separators, as uploaded names
are). -/
def extname (s : String) : String :=
  let cs := s.data
  let tail := (cs.reverse.takeWhile (fun c => !(c == '.'))).reverse
  if cs.contains '.' && decide (2 ≤ cs.length - tail.length) then
    String.mk ('.' :: tail)
  else ""

/-- `fileController.uploadFile` (lines 17-82). `blobId` stands for the
`randomUUID()` drawn inside `saveFile`; `insertFails` injects a failure of
the metadata `INSERT` (e.g. a uniqueness violation), in which case the
transaction is rolled back but the blob written by `saveFile` stays. -/
def uploadFile (db : DB) (userId : Nat) (fileName mimeType : String)
    (size : Nat) (folderId : Option Nat) (blobId : String)
    (insertFails : Bool) : Except Err Unit × DB × List Ev :=
  let relPath := savedRelPath userId blobId (extname fileName)
  let blobs1 := db.blobs ++ [{ path := relPath, mtime := 0 }]
  if insertFails then
    (Except.error Err.operationFailed,
     { db with blobs := blobs1 },
     [Ev.evBegin, Ev.evBlobWrite, Ev.evInsert, Ev.evRollback])
  else
    let row : FileRow :=
      { file_id := nextFileId db.files, user_id := userId,
        folder_id := folderId, name := fileName, file_path := relPath,
        mime_type := mimeType, size := size }
    let c1 := if truthy folderId then
        cacheDelete db.cache (CKey.folderContents (folderId.getD 0))
      else db.cache
    let c2 := cacheDelete c1 (CKey.userFolders userId)
    let folderCacheEvs := if truthy folderId then
        [Ev.evCacheDel (CKey.folderContents (folderId.getD 0))]
      else []
    (Except.ok (),
     { db with files := db.files ++ [row], blobs := blobs1, cache := c2 },
     [Ev.evBegin, Ev.evBlobWrite, Ev.evInsert] ++ folderCacheEvs ++
     [Ev.evCacheDel (CKey.userFolders userId), Ev.evCommit, Ev.evSelect])

/-- `folderController.createFolder` (lines 331-413). The `INSERT` is
subject to the foreign key on `parent_folder_id`; the checked branch
(`if (parentFolderId)`) verified the parent exists, but the falsy value
`0` skips both the check and the `IS NULL` rewriting, so an insert with
parent id `0` fails at the store level and rolls back. -/
def createFolder (db : DB) (userId : Nat) (nm : String)
    (parentFolderId : Option Nat) : Except Err Unit × DB × List Ev :=
  let parentCheckEvs := if truthy parentFolderId then [Ev.evSelect] else []
  if truthy parentFolderId &&
      (db.folders.filter (fun f =>
        f.folder_id == parentFolderId.getD 0 && f.user_id == userId)).isEmpty then
    (Except.error Err.parentFolderNotFound, db,
     [Ev.evBegin] ++ parentCheckEvs ++ [Ev.evRollback])
  else
    let existing := db.folders.filter (fun f =>
      f.user_id == userId && f.name == nm &&
      (if truthy parentFolderId then f.parent_folder_id == parentFolderId
       else f.parent_folder_id == none))
    if !existing.isEmpty then
      (Except.error Err.folderAlreadyExists, db,
       [Ev.evBegin] ++ parentCheckEvs ++ [Ev.evSelect, Ev.evRollback])
    else
      let fkOk : Bool := match parentFolderId with
        | none => true
        | some q => (ids db.folders).contains q
      if !fkOk then
        (Except.error Err.operationFailed, db,
         [Ev.evBegin] ++ parentCheckEvs ++ [Ev.evSelect, Ev.evInsert, Ev.evRollback])
      else
        let row : Folder :=
          { folder_id := nextFolderId db.folders, user_id := userId,
            parent_folder_id := parentFolderId, name := nm }
        let c1 := if truthy parentFolderId then
            cacheDelete
              (cacheDelete db.cache
                (CKey.folderSubfolders (parentFolderId.getD 0)))
              (CKey.folderContents (parentFolderId.getD 0))
          else db.cache
        let c2 := cacheDeleteTreePattern
          (cacheDelete c1 (CKey.userFolders userId)) userId
        let parentCacheEvs := if truthy parentFolderId then
            [Ev.evCacheDel (CKey.folderSubfolders (parentFolderId.getD 0)),
             Ev.evCacheDel (CKey.folderContents (parentFolderId.getD 0))]
          else []
        (Except.ok (),
         { db with folders := db.folders ++ [row], cache := c2 },
         [Ev.evBegin] ++ parentCheckEvs ++ [Ev.evSelect, Ev.evInsert] ++
         parentCacheEvs ++
         [Ev.evCacheDel (CKey.userFolders userId), Ev.evCacheDelPattern userId,
          Ev.evCommit, Ev.evSelect])

/-- `folderController.renameFolder` (lines 511-583). -/
def renameFolder (db : DB) (userId folderId : Nat) (newName : String) :
    Except Err Unit × DB × List Ev :=
  match db.folders.find? (fun f => f.folder_id == folderId && f.user_id == userId) with
  | none =>
    (Except.error Err.folderNotFound, db, [Ev.evBegin, Ev.evSelect, Ev.evRollback])
  | some folder =>
    let existing := db.folders.filter (fun f =>
      f.user_id == userId && f.name == newName && f.folder_id != folderId &&
      (if truthy folder.parent_folder_id then
        f.parent_folder_id == folder.parent_folder_id
       else f.parent_folder_id == none))
    if !existing.isEmpty then
      (Except.error Err.nameAlreadyExists, db,
       [Ev.evBegin, Ev.evSelect, Ev.evSelect, Ev.evRollback])
    else
      let folders1 := db.folders.map (fun f =>
        if f.folder_id == folderId then { f with name := newName } else f)
      let c1 := cacheDelete db.cache (CKey.folderKey folderId)
      let c2 := if truthy folder.parent_folder_id then
          cacheDelete
            (cacheDelete c1
              (CKey.folderSubfolders (folder.parent_folder_id.getD 0)))
            (CKey.folderContents (folder.parent_folder_id.getD 0))
        else c1
      let c3 := cacheDeleteTreePattern
        (cacheDelete c2 (CKey.userFolders userId)) userId
      let parentCacheEvs := if truthy folder.parent_folder_id then
          [Ev.evCacheDel (CKey.folderSubfolders (folder.parent_folder_id.getD 0)),
           Ev.evCacheDel (CKey.folderContents (folder.parent_folder_id.getD 0))]
        else []
      (Except.ok (),
       { db with folders := folders1, cache := c3 },
       [Ev.evBegin, Ev.evSelect, Ev.evSelect, Ev.evUpdate,
        Ev.evCacheDel (CKey.folderKey folderId)] ++ parentCacheEvs ++
       [Ev.evCacheDel (CKey.userFolders userId), Ev.evCacheDelPattern userId,
        Ev.evCommit])

/-- The tail of `folderController.moveFolder` after all validation has
passed (the `UPDATE` at line 774 onward): the `UPDATE` is subject to the
foreign key on `parent_folder_id` (reachable only with the falsy parent id
`0`, which skips validation), then the caches are invalidated and the
transaction commits. `pre` is the trace of the validation queries already
performed. -/
def moveFolderFinish (db : DB) (userId folderId : Nat)
    (newParentId : Option Nat) (folder : Folder) (pre : List Ev) :
    Except Err Unit × DB × List Ev :=
  let fkOk : Bool := match newParentId with
    | none => true
    | some q => (ids db.folders).contains q
  if !fkOk then
    (Except.error Err.operationFailed, db, pre ++ [Ev.evUpdate, Ev.evRollback])
  else
    let folders1 := db.folders.map (fun f =>
      if f.folder_id == folderId then { f with parent_folder_id := newParentId }
      else f)
    let c1 := cacheDelete db.cache (CKey.folderKey folderId)
    let c2 := if truthy folder.parent_folder_id then
        cacheDelete
          (cacheDelete c1
            (CKey.folderSubfolders (folder.parent_folder_id.getD 0)))
          (CKey.folderContents (folder.parent_folder_id.getD 0))
      else c1
    let c3 := if truthy newParentId then
        cacheDelete
          (cacheDelete c2 (CKey.folderSubfolders (newParentId.getD 0)))
          (CKey.folderContents (newParentId.getD 0))
      else c2
    let c4 := cacheDeleteTreePattern
      (cacheDelete c3 (CKey.userFolders userId)) userId
    let oldParentEvs := if truthy folder.parent_folder_id then
        [Ev.evCacheDel (CKey.folderSubfolders (folder.parent_folder_id.getD 0)),
         Ev.evCacheDel (CKey.folderContents (folder.parent_folder_id.getD 0))]
      else []
    let newParentEvs := if truthy newParentId then
        [Ev.evCacheDel (CKey.folderSubfolders (newParentId.getD 0)),
         Ev.evCacheDel (CKey.folderContents (newParentId.getD 0))]
      else []
    (Except.ok (),
     { db with folders := folders1, cache := c4 },
     pre ++ [Ev.evUpdate, Ev.evCacheDel (CKey.folderKey folderId)] ++
     oldParentEvs ++ newParentEvs ++
     [Ev.evCacheDel (CKey.userFolders userId), Ev.evCacheDelPattern userId,
      Ev.evCommit])

/-- `folderController.moveFolder` (lines 686-813). The destination checks
run only when `newParentId` is truthy; `isDescendant` is called with fuel
`fs.length + 1`, which computes the unbounded JS recursion on acyclic
tables. -/
def moveFolder (db : DB) (userId folderId : Nat) (newParentId : Option Nat) :
    Except Err Unit × DB × List Ev :=
  match db.folders.find? (fun f => f.folder_id == folderId && f.user_id == userId) with
  | none =>
    (Except.error Err.folderNotFound, db, [Ev.evBegin, Ev.evSelect, Ev.evRollback])
  | some folder =>
    if some folderId == newParentId then
      (Except.error Err.cannotMoveToItself, db,
       [Ev.evBegin, Ev.evSelect, Ev.evRollback])
    else if truthy newParentId then
      let np := newParentId.getD 0
      if (db.folders.filter (fun f =>
          f.folder_id == np && f.user_id == userId)).isEmpty then
        (Except.error Err.newParentNotFound, db,
         [Ev.evBegin, Ev.evSelect, Ev.evSelect, Ev.evRollback])
      else if isDescendant db.folders (db.folders.length + 1) folderId np then
        (Except.error Err.cannotMoveToOwnSubfolder, db,
         [Ev.evBegin, Ev.evSelect, Ev.evSelect, Ev.evSelect, Ev.evRollback])
      else if !(db.folders.filter (fun f =>
          f.user_id == userId && f.name == folder.name &&
          f.parent_folder_id == some np)).isEmpty then
        (Except.error Err.nameAlreadyExistsInDestination, db,
         [Ev.evBegin, Ev.evSelect, Ev.evSelect, Ev.evSelect, Ev.evSelect,
          Ev.evRollback])
      else
        moveFolderFinish db userId folderId newParentId folder
          [Ev.evBegin, Ev.evSelect, Ev.evSelect, Ev.evSelect, Ev.evSelect]
    else
      if !(db.folders.filter (fun f =>
          f.user_id == userId && f.name == folder.name &&
          f.parent_folder_id == none)).isEmpty then
        (Except.error Err.nameAlreadyExistsInDestination, db,
         [Ev.evBegin, Ev.evSelect, Ev.evSelect, Ev.evRollback])
      else
        moveFolderFinish db userId folderId newParentId folder
          [Ev.evBegin, Ev.evSelect, Ev.evSelect]

/-- The loop at lines 443-445 of `folderController.deleteFolder`: each
file directly inside the folder is handed to `fileController.deleteFile`,
whose own transaction commits (or rolls back, for files of another owner)
independently; its result is ignored. -/
def deleteDirectFiles (userId : Nat) :
    List FileRow → DB → List Ev → DB × List Ev
  | [], db, tr => (db, tr)
  | file :: rest, db, tr =>
    let r := deleteFile db userId file.file_id
    deleteDirectFiles userId rest r.2.1 (tr ++ r.2.2)

/-- `folderController.deleteFolder` (lines 416-508). `failDelete` injects
a store failure of the final two `DELETE FROM folders` statements; those
statements run inside the transaction of the connection this function
holds, so the rollback discards them, while the file deletions already
committed by `deleteFile` on other connections persist. -/
def deleteFolder (db : DB) (userId folderId : Nat) (failDelete : Bool) :
    Except Err Unit × DB × List Ev :=
  match db.folders.find? (fun f => f.folder_id == folderId && f.user_id == userId) with
  | none =>
    (Except.error Err.folderNotFound, db, [Ev.evBegin, Ev.evSelect, Ev.evRollback])
  | some folder =>
    let directFiles := db.files.filter (fun fl => fl.folder_id == some folderId)
    let afterFiles := deleteDirectFiles userId directFiles db
      [Ev.evBegin, Ev.evSelect, Ev.evSelect]
    let db1 := afterFiles.1
    let subfolderIds :=
      collectSubfolderIds db1.folders (db1.folders.length + 1) folderId
    if failDelete then
      (Except.error Err.operationFailed, db1,
       afterFiles.2 ++ [Ev.evSelect, Ev.evDeleteRows, Ev.evRollback])
    else
      let afterSub :=
        if subfolderIds.isEmpty then (db1.folders, db1.files)
        else deleteFolderRowsCascade db1.folders db1.files subfolderIds
      let afterAll := deleteFolderRowsCascade afterSub.1 afterSub.2 [folderId]
      let c1 := cacheDelete
        (cacheDelete
          (cacheDelete db1.cache (CKey.folderKey folderId))
          (CKey.folderContents folderId))
        (CKey.folderSubfolders folderId)
      let c2 := if truthy folder.parent_folder_id then
          cacheDelete
            (cacheDelete c1
              (CKey.folderSubfolders (folder.parent_folder_id.getD 0)))
            (CKey.folderContents (folder.parent_folder_id.getD 0))
        else c1
      let c3 := cacheDeleteTreePattern
        (cacheDelete c2 (CKey.userFolders userId)) userId
      let parentCacheEvs := if truthy folder.parent_folder_id then
          [Ev.evCacheDel (CKey.folderSubfolders (folder.parent_folder_id.getD 0)),
           Ev.evCacheDel (CKey.folderContents (folder.parent_folder_id.getD 0))]
        else []
      (Except.ok (),
       { db1 with folders := afterAll.1, files := afterAll.2, cache := c3 },
       afterFiles.2 ++ [Ev.evSelect, Ev.evDeleteRows, Ev.evDeleteRows,
         Ev.evCacheDel (CKey.folderKey folderId),
         Ev.evCacheDel (CKey.folderContents folderId),
         Ev.evCacheDel (CKey.folderSubfolders folderId)] ++ parentCacheEvs ++
       [Ev.evCacheDel (CKey.userFolders userId), Ev.evCacheDelPattern userId,
        Ev.evCommit])

/-- The recursive `buildTree` inside `folderController.getFolderTree`
(lines 896-914): the filter condition of the source is equivalent to
equality of the optional parent with `parentId` in both the `null` and the
numeric case. The JS recursion is unbounded; the fuel is sufficient on
acyclic tables. -/
def buildTree (folders : List Folder) : Nat → Option Nat → List TreeNode
  | 0, _ => []
  | fuel + 1, parentId =>
    (folders.filter (fun f => f.parent_folder_id == parentId)).map
      (fun f => TreeNode.mk f.folder_id f.name
        (if parentId == none then 0 else 1)
        (buildTree folders fuel (some f.folder_id)))

/-- `folderController.getFolderTree` (lines 877-929). -/
def getFolderTree (db : DB) (userId : Nat) : Except Err CVal × DB :=
  match cacheGet db.cache (CKey.userFolderTree userId) with
  | some cached => (Except.ok cached, db)
  | none =>
    let folders := (db.folders.filter (fun f =>
      f.user_id == userId)).mergeSort (fun a b => a.name ≤ b.name)
    let tree := buildTree folders (folders.length + 1) none
    let c1 := cacheSet db.cache (CKey.userFolderTree userId) (CVal.vTree tree)
    (Except.ok (CVal.vTree tree), { db with cache := c1 })

/-- `validateFolderName` in `src/utils/fileValidator.ts` (lines 75-98).
The result records whether the name passed and which rule failed;
the error strings of the source are collapsed to this sum. -/
inductive NameCheck where
  | valid
  | emptyName
  | tooLong
  | invalidChar (c : Char)
  deriving Repr, DecidableEq

/-- `String.prototype.trim`: strip leading and trailing whitespace
(executable model of the library trim). -/
def jsTrim (s : String) : String :=
  String.mk (((s.data.dropWhile Char.isWhitespace).reverse.dropWhile
    Char.isWhitespace).reverse)

def validateFolderName (nm : String) : NameCheck :=
  if nm == "" || jsTrim nm == "" then NameCheck.emptyName
  else if nm.length > 255 then NameCheck.tooLong
  else
    match "/\\:*?\"<>|".toList.find? (fun c => nm.data.contains c) with
    | some c => NameCheck.invalidChar c
    | none => NameCheck.valid


/-- Is the event a cache invalidation (exact-key delete or pattern
delete)? -/
def isCacheInval : Ev → Bool
  | Ev.evCacheDel _ => true
  | Ev.evCacheDelPattern _ => true
  | _ => false

/-- Some cache invalidation occurs before the first commit of the trace. -/
def invalBeforeFirstCommit (tr : List Ev) : Bool :=
  (tr.takeWhile (fun e => !(e == Ev.evCommit))).any isCacheInval

/-- No cache invalidation occurs after the last commit of the trace. -/
def noInvalAfterLastCommit (tr : List Ev) : Bool :=
  (tr.reverse.takeWhile (fun e => !(e == Ev.evCommit))).all
    (fun e => !(isCacheInval e))

/-- The on-disk state of the blob store: the set of directories and the
files (absolute path to byte content). -/
structure Storage where
  dirs : List String
  blobsFS : List (String × List Nat)
  deriving Repr, DecidableEq

/-- POSIX `path.join` of two already-normalized segments. -/
def pjoin (a b : String) : String := a ++ "/" ++ b

/-- `mkdir` with `recursive: true` for one directory: created only when
absent (idempotent). -/
def mkdirp (ds : List String) (d : String) : List String :=
  if ds.contains d then ds else ds ++ [d]

/-- `filePath.replace(UPLOAD_DIR, '')`: removes the first occurrence of
the storage root; in `saveFile` that occurrence is the prefix of the full
path, so the model strips a prefix. -/
def stripFirst (s pre : String) : String :=
  if s.data.take pre.data.length = pre.data then
    String.mk (s.data.drop pre.data.length)
  else s

/-- A POSIX path string is absolute exactly when it starts with the
separator (this is `path.posix.isAbsolute`). -/
def isAbsolutePath (s : String) : Bool := s.data.head? == some '/' 

/-- `saveFile` in `src/services/fileStorage.ts`: derives the two shard
directories from the first six characters of the fresh blob id
(`randomUUID()`, passed here as the parameter `blobId`), creates the
directories idempotently, writes the bytes under `blobId + extension`,
and returns the full path with the `uploadDir` prefix replaced by the
empty string. -/
def saveFile (uploadDir : String) (st : Storage) (userId : Nat)
    (bytes : List Nat) (originalFilename blobId : String) :
    (String × String) × Storage :=
  let fileExtension := extname originalFilename
  let filename := blobId ++ fileExtension
  let firstDir := blobId.take 3
  let secondDir := (blobId.drop 3).take 3
  let userDir := pjoin uploadDir ("user_" ++ toString userId)
  let fileDir := pjoin (pjoin userDir firstDir) secondDir
  let filePath := pjoin fileDir filename
  let dirs1 := mkdirp (mkdirp (mkdirp st.dirs userDir) (pjoin userDir firstDir)) fileDir
  let blobs1 := (filePath, bytes) :: st.blobsFS.filter (fun e => e.1 != filePath)
  let relativePath := stripFirst filePath uploadDir
  ((relativePath, blobId), { dirs := dirs1, blobsFS := blobs1 })


/-- Executable well-formedness check used to instantiate `WF` on concrete
tables. -/
def WFB (fs : List Folder) : Bool :=
  decide ((ids fs).Nodup) &&
  fs.all (fun f =>
    (match f.parent_folder_id with
     | none => true
     | some p => (ids fs).contains p) &&
    (0 < f.folder_id : Bool) &&
    (match f.parent_folder_id with
     | none => true
     | some p => fs.all (fun g => g.folder_id != p || g.user_id == f.user_id)))


/-- One folder-tree mutation, as issued through the routes. -/
inductive Op where
  | opCreate (userId : Nat) (nm : String) (parentFolderId : Option Nat)
  | opRename (userId folderId : Nat) (nm : String)
  | opMove (userId folderId : Nat) (newParentId : Option Nat)
  | opDelete (userId folderId : Nat)
  deriving Repr

/-- The post-state of one operation (error paths leave the state as the
rollback left it). -/
def applyOp (db : DB) : Op → DB
  | Op.opCreate u nm p => (createFolder db u nm p).2.1
  | Op.opRename u fid nm => (renameFolder db u fid nm).2.1
  | Op.opMove u fid np => (moveFolder db u fid np).2.1
  | Op.opDelete u fid => (deleteFolder db u fid false).2.1

def applyOps (db : DB) (ops : List Op) : DB := ops.foldl applyOp db

def emptyDB : DB := ⟨[], [], [], []⟩

/-- The invariant carried across operation sequences: schema
well-formedness together with acyclicity of the parent relation. -/
def GoodTable (fs : List Folder) : Prop := WF fs ∧ Acyclic fs

/-- A two-folder store of one owner (folder 2 inside folder 1), used to
exercise the moveFolder guards on a concrete table. -/
def moveDemoDB : DB :=
  ⟨[⟨1, 7, none, "A"⟩, ⟨2, 7, some 1, "B"⟩], [], [], []⟩

/-- All nodes of a forest, the node itself before its subtree. -/
def nodesOf : List TreeNode → List TreeNode
  | [] => []
  | TreeNode.mk i nm lv cs :: rest =>
    TreeNode.mk i nm lv cs :: (nodesOf cs ++ nodesOf rest)

/-- The flattened id list of a forest. -/
def flattenNodes (ts : List TreeNode) : List Nat :=
  (nodesOf ts).map TreeNode.id

/-! ## Theorems -/

theorem ancK_zero (fs : List Folder) (x : Nat) : ancK fs 0 x = some x := rfl

theorem ancK_succ (fs : List Folder) (k x : Nat) :
    ancK fs (k + 1) x =
      match parentStep fs x with
      | none => none
      | some p => ancK fs k p := rfl

theorem ancK_add (fs : List Folder) (j k x : Nat) :
    ancK fs (j + k) x = (ancK fs j x).bind (ancK fs k) := by
  induction j generalizing x with
  | zero => simp [ancK]
  | succ j ih =>
    have : j + 1 + k = (j + k) + 1 := by omega
    rw [this, ancK_succ, ancK_succ]
    cases h : parentStep fs x with
    | none => simp
    | some p => simp [ih]

theorem ancK_dead (fs : List Folder) (j k x : Nat) (h : ancK fs j x = none) :
    ancK fs (j + k) x = none := by
  rw [ancK_add, h]; rfl

theorem ancK_alive (fs : List Folder) (j k x y : Nat) (hjk : j ≤ k)
    (h : ancK fs k x = some y) : ∃ z, ancK fs j x = some z := by
  rcases Nat.exists_eq_add_of_le hjk with ⟨m, rfl⟩
  cases hz : ancK fs j x with
  | none => rw [ancK_dead fs j m x hz] at h; exact absurd h (by simp)
  | some z => exact ⟨z, rfl⟩

/-- Every node on the ancestor chain of a folder id is a folder id
(foreign-key closure). -/
theorem ancK_mem_ids (fs : List Folder) (hcl : ∀ f ∈ fs, ∀ p,
    f.parent_folder_id = some p → p ∈ ids fs) (k x y : Nat)
    (hx : x ∈ ids fs) (h : ancK fs k x = some y) : y ∈ ids fs := by
  induction k generalizing x with
  | zero => simp [ancK] at h; exact h ▸ hx
  | succ k ih =>
    rw [ancK_succ] at h
    cases hp : parentStep fs x with
    | none => rw [hp] at h; exact absurd h (by simp)
    | some p =>
      rw [hp] at h
      have hpmem : p ∈ ids fs := by
        unfold parentStep rowOf at hp
        cases hf : fs.find? (fun f => f.folder_id == x) with
        | none => rw [hf] at hp; exact absurd hp (by simp)
        | some f =>
          rw [hf] at hp
          exact hcl f (List.mem_of_find?_eq_some hf) p hp
      exact ih p hpmem h

theorem rowOf_mem {fs : List Folder} {x : Nat} {f : Folder}
    (h : rowOf fs x = some f) : f ∈ fs ∧ f.folder_id = x := by
  refine ⟨List.mem_of_find?_eq_some h, ?_⟩
  have := List.find?_some h
  simpa using this

theorem rowOf_of_mem_ids {fs : List Folder} {x : Nat} (h : x ∈ ids fs) :
    ∃ f, rowOf fs x = some f := by
  rcases List.mem_map.mp h with ⟨f, hf, rfl⟩
  have : (fs.find? (fun g => g.folder_id == f.folder_id)).isSome :=
    List.find?_isSome.mpr ⟨f, hf, by simp⟩
  rcases Option.isSome_iff_exists.mp this with ⟨g, hg⟩
  exact ⟨g, hg⟩

/-- With distinct primary keys, the row returned by a point query for the
id of a known row is that row. -/
theorem rowOf_eq_of_mem {fs : List Folder} (hnd : (ids fs).Nodup)
    {f : Folder} (hf : f ∈ fs) : rowOf fs f.folder_id = some f := by
  rcases rowOf_of_mem_ids (List.mem_map_of_mem Folder.folder_id hf) with ⟨g, hg⟩
  rcases rowOf_mem hg with ⟨hgmem, hgid⟩
  have := List.inj_on_of_nodup_map hnd hgmem hf hgid
  rw [hg, this]

/-- Pigeonhole: in an acyclic table with foreign-key closure, an ancestor
chain starting at a folder id cannot stay alive for more than `fs.length`
steps, because its values would repeat and yield a cycle. -/
theorem ancK_length_bound (fs : List Folder)
    (hcl : ∀ f ∈ fs, ∀ p, f.parent_folder_id = some p → p ∈ ids fs)
    (hac : Acyclic fs) {x y k : Nat}
    (hx : x ∈ ids fs) (h : ancK fs k x = some y) : k ≤ fs.length := by
  by_contra hk
  push_neg at hk
  have hmaps : ∀ j ∈ Finset.range (fs.length + 1),
      (ancK fs j x).getD 0 ∈ (ids fs).toFinset := by
    intro j hj
    have hjk : j ≤ k := by
      have := Finset.mem_range.mp hj; omega
    rcases ancK_alive fs j k x y hjk h with ⟨z, hz⟩
    rw [hz]
    exact List.mem_toFinset.mpr (ancK_mem_ids fs hcl j x z hx hz)
  have hcard : (ids fs).toFinset.card < (Finset.range (fs.length + 1)).card := by
    have h1 : (ids fs).toFinset.card ≤ (ids fs).length := List.toFinset_card_le _
    have h2 : (ids fs).length = fs.length := List.length_map _ _
    simp only [Finset.card_range]; omega
  obtain ⟨j, hj, j', hj', hne, heq⟩ :=
    Finset.exists_ne_map_eq_of_card_lt_of_maps_to hcard hmaps
  have halive : ∀ i ∈ Finset.range (fs.length + 1), ∃ z, ancK fs i x = some z := by
    intro i hi
    have hik : i ≤ k := by have := Finset.mem_range.mp hi; omega
    exact ancK_alive fs i k x y hik h
  rcases halive j hj with ⟨z, hz⟩
  rcases halive j' hj' with ⟨z', hz'⟩
  rw [hz, hz'] at heq
  simp only [Option.getD_some] at heq
  subst heq
  -- both chains land on the same id z; the difference of indices is a cycle
  rcases Nat.lt_or_ge j j' with hlt | hge
  · have hsum : j + (j' - j) = j' := by omega
    have hadd := ancK_add fs j (j' - j) x
    rw [hsum, hz] at hadd
    rw [hz'] at hadd
    simp only [Option.some_bind] at hadd
    have hm' : j' - j = (j' - j - 1) + 1 := by omega
    rw [hm'] at hadd
    exact hac z (j' - j - 1) hadd.symm
  · have hlt' : j' < j := by omega
    have hsum : j' + (j - j') = j := by omega
    have hadd := ancK_add fs j' (j - j') x
    rw [hsum, hz'] at hadd
    rw [hz] at hadd
    simp only [Option.some_bind] at hadd
    have hm' : j - j' = (j - j' - 1) + 1 := by omega
    rw [hm'] at hadd
    exact hac z (j - j' - 1) hadd.symm

/-- In an acyclic closed table every ancestor chain dies within
`fs.length + 1` steps. -/
theorem ancK_dies (fs : List Folder)
    (hcl : ∀ f ∈ fs, ∀ p, f.parent_folder_id = some p → p ∈ ids fs)
    (hac : Acyclic fs) {x : Nat} (hx : x ∈ ids fs) :
    ancK fs (fs.length + 1) x = none := by
  cases h : ancK fs (fs.length + 1) x with
  | none => rfl
  | some y =>
    have := ancK_length_bound fs hcl hac hx h
    omega

theorem acyclic_of_rootedB (fs : List Folder) (h : rootedB fs = true) :
    Acyclic fs := by
  intro x k hx
  -- the first step of the cycle shows that x is the id of some row
  have hxmem : x ∈ ids fs := by
    rw [ancK_succ] at hx
    cases hp : parentStep fs x with
    | none => rw [hp] at hx; exact absurd hx (by simp)
    | some p =>
      unfold parentStep rowOf at hp
      cases hf : fs.find? (fun f => f.folder_id == x) with
      | none => rw [hf] at hp; exact absurd hp (by simp)
      | some f =>
        rcases rowOf_mem hf with ⟨hfm, hfid⟩
        exact hfid ▸ List.mem_map_of_mem Folder.folder_id hfm
  -- chains on a cycle are alive at every multiple of the cycle length
  have hmult : ∀ m, ancK fs (m * (k + 1)) x = some x := by
    intro m
    induction m with
    | zero => rw [Nat.zero_mul]; rfl
    | succ m ih =>
      have : (m + 1) * (k + 1) = m * (k + 1) + (k + 1) := by ring
      rw [this, ancK_add, ih, Option.some_bind, hx]
  -- but rootedB says the chain from x dies within fs.length + 1 steps
  rcases List.mem_map.mp hxmem with ⟨f, hf, hfid⟩
  have hdead : ancK fs (fs.length + 1) x = none := by
    have := List.all_eq_true.mp h f hf
    rw [hfid] at this
    simpa using this
  have halive := hmult (fs.length + 1)
  have hge : fs.length + 1 ≤ (fs.length + 1) * (k + 1) := by
    have : 1 ≤ k + 1 := by omega
    calc fs.length + 1 = (fs.length + 1) * 1 := by ring
    _ ≤ (fs.length + 1) * (k + 1) := Nat.mul_le_mul_left _ this
  rcases Nat.exists_eq_add_of_le hge with ⟨r, hr⟩
  rw [hr, ancK_dead fs (fs.length + 1) r x hdead] at halive
  exact absurd halive (by simp)


/-- C10: for every owner and state, `getFilesInFolder` and `getSubfolders`
called with folder id `0` behave exactly like the call with folder id
`null`: the code branches on JS numeric truthiness, so `0` selects the
`IS NULL` query filter and the owner-root cache key, and the numeric id
`0` can never address an actual folder through these operations. -/
theorem C10_folder_id_zero_behaves_as_null (db : DB) (userId : Nat) :
    getFilesInFolder db userId (some 0) = getFilesInFolder db userId none ∧
    getSubfolders db userId (some 0) = getSubfolders db userId none :=
  ⟨rfl, rfl⟩

/-- C4 counterexample: with one file owned by user 1 and an empty cache,
a read by the owner (user 1) populates the cache under the key `file:1`,
which contains no owner id; the subsequent read by user 2 hits the cache
and returns the owner's file details instead of the claimed `NotFound`. -/
theorem C4_counterexample_cross_owner_cache_hit :
    (getFileDetails
      (getFileDetails
        { folders := [],
          files := [{ file_id := 1, user_id := 1, folder_id := none,
                      name := "a.txt", file_path := "/user_1/abc/def/u1.txt",
                      mime_type := "text/plain", size := 10 }],
          blobs := [], cache := [] }
        1 1).2
      2 1).1
    = Except.ok (CVal.vFileDetails
        { id := 1, name := "a.txt", size := 10, mime_type := "text/plain",
          folder_id := none, last_modified := none }) := rfl

/-- C4 amended: owner isolation holds exactly on the cache-miss path: if
the cache has no entry under the key of the requested file, a read by a
non-owner returns `NotFound` and leaves the state unchanged. (The cache
key omits the owner, so after a prior read by the owner a non-owner is
served the cached details; see the counterexample.) -/
theorem C4_owner_isolation_on_cache_miss (db : DB) (a b fileId : Nat)
    (hmiss : cacheGet db.cache (CKey.file fileId) = none)
    (hown : ∀ fl ∈ db.files, fl.file_id = fileId → fl.user_id = a)
    (hne : b ≠ a) :
    getFileDetails db b fileId = (Except.error Err.fileNotFound, db) := by
  unfold getFileDetails
  rw [hmiss]
  have hfind : db.files.find?
      (fun fl => fl.file_id == fileId && fl.user_id == b) = none := by
    rw [List.find?_eq_none]
    intro fl hfl
    by_cases hid : fl.file_id = fileId
    · have := hown fl hfl hid
      simp [hid, this, hne, Ne.symm hne]
    · simp [hid]
  rw [hfind]

/-- C4 witness: the amended theorem applied to a concrete store with one
file owned by user 1 and an empty cache, read by user 2. -/
theorem C4_owner_isolation_witness :
    (getFileDetails
      { folders := [],
        files := [{ file_id := 1, user_id := 1, folder_id := none,
                    name := "a.txt", file_path := "/user_1/abc/def/u1.txt",
                    mime_type := "text/plain", size := 10 }],
        blobs := [], cache := [] }
      2 1).1
    = Except.error Err.fileNotFound :=
  congrArg Prod.fst
    (C4_owner_isolation_on_cache_miss
      { folders := [],
        files := [{ file_id := 1, user_id := 1, folder_id := none,
                    name := "a.txt", file_path := "/user_1/abc/def/u1.txt",
                    mime_type := "text/plain", size := 10 }],
        blobs := [], cache := [] }
      1 2 1 rfl
      (by intro fl hfl hid; simp at hfl; rw [hfl]) (by decide))


/-- C6 counterexample: the name `a/b` contains `/`, so the folder-name
validator rejects it, yet `createFolder` succeeds and persists a folder
row with exactly that name (mutating the store). The controllers never
invoke `validateFolderName`. -/
theorem C6_counterexample_invalid_name_persisted :
    validateFolderName "a/b" = NameCheck.invalidChar '/' ∧
    createFolder { folders := [], files := [], blobs := [], cache := [] }
        1 "a/b" none
      = (Except.ok (),
         { folders := [{ folder_id := 1, user_id := 1,
                         parent_folder_id := none, name := "a/b" }],
           files := [], blobs := [], cache := [] },
         [Ev.evBegin, Ev.evSelect, Ev.evInsert,
          Ev.evCacheDel (CKey.userFolders 1), Ev.evCacheDelPattern 1,
          Ev.evCommit, Ev.evSelect]) := by
  exact ⟨by decide, rfl⟩

/-- C6 amended: `validateFolderName` implements exactly the folder-name
rules (non-empty after trimming, at most 255 characters, none of the nine
reserved characters), but neither `createFolder` nor `renameFolder`
invokes it: whenever the parent and sibling-uniqueness checks pass, both
succeed and persist a name that fails the validator. -/
theorem C6_name_rules_not_enforced :
    (∀ nm : String, validateFolderName nm = NameCheck.valid ↔
      (¬(nm = "" ∨ jsTrim nm = "") ∧ nm.length ≤ 255 ∧
        ∀ c ∈ "/\\:*?\"<>|".toList, nm.data.contains c = false)) ∧
    (∀ (db : DB) (userId : Nat) (nm : String),
      validateFolderName nm ≠ NameCheck.valid →
      (db.folders.filter (fun f => f.user_id == userId && f.name == nm &&
        f.parent_folder_id == none)).isEmpty = true →
      (createFolder db userId nm none).1 = Except.ok () ∧
      ({ folder_id := nextFolderId db.folders, user_id := userId,
         parent_folder_id := none, name := nm } : Folder) ∈
        (createFolder db userId nm none).2.1.folders) ∧
    (∀ (db : DB) (userId folderId : Nat) (nm : String) (folder : Folder),
      validateFolderName nm ≠ NameCheck.valid →
      db.folders.find?
        (fun f => f.folder_id == folderId && f.user_id == userId) = some folder →
      (db.folders.filter (fun f =>
        f.user_id == userId && f.name == nm && f.folder_id != folderId &&
        (if truthy folder.parent_folder_id then
          f.parent_folder_id == folder.parent_folder_id
         else f.parent_folder_id == none))).isEmpty = true →
      (renameFolder db userId folderId nm).1 = Except.ok () ∧
      ∀ f ∈ (renameFolder db userId folderId nm).2.1.folders,
        f.folder_id = folderId → f.name = nm) := by
  refine ⟨?_, ?_, ?_⟩
  · intro nm
    unfold validateFolderName
    constructor
    · intro hv
      split at hv
      · exact absurd hv (by simp)
      · split at hv
        · exact absurd hv (by simp)
        · rename_i h1 h2
          cases hf : "/\\:*?\"<>|".toList.find? (fun c => nm.data.contains c) with
          | some c => rw [hf] at hv; exact absurd hv (by simp)
          | none =>
            refine ⟨?_, by omega, ?_⟩
            · intro hcon
              rcases hcon with h | h <;> rw [h] at h1 <;> simp at h1
            · intro c hc
              have := List.find?_eq_none.mp hf c hc
              simpa using this
    · intro ⟨hne, hlen, hchars⟩
      have h1 : (nm == "" || jsTrim nm == "") = false := by
        simp only [Bool.or_eq_false_iff, beq_eq_false_iff_ne]
        exact ⟨fun h => hne (Or.inl h), fun h => hne (Or.inr h)⟩
      rw [h1]
      simp only [Bool.false_eq_true, if_false]
      rw [if_neg (by omega)]
      cases hf : "/\\:*?\"<>|".toList.find? (fun c => nm.data.contains c) with
      | some c =>
        have hcmem := List.mem_of_find?_eq_some hf
        have hc := List.find?_some hf
        rw [hchars c hcmem] at hc
        exact absurd hc (by simp)
      | none => rfl
  · intro db userId nm _ hempt
    unfold createFolder
    simp only [truthy, Bool.false_and, Bool.false_eq_true, if_false]
    rw [hempt]
    simp
  · intro db userId folderId nm folder _ hfind hempt
    unfold renameFolder
    rw [hfind]
    dsimp only
    rw [hempt]
    simp only [Bool.not_true, Bool.false_eq_true, if_false]
    refine ⟨by trivial, ?_⟩
    dsimp only
    intro f hmem hfid
    simp only [List.mem_map] at hmem
    rcases hmem with ⟨g, _, hg⟩
    by_cases hgid : (g.folder_id == folderId) = true
    · rw [if_pos hgid] at hg; rw [← hg]
    · rw [if_neg hgid] at hg
      rw [← hg] at hfid
      simp only [beq_iff_eq] at hgid
      exact absurd hfid hgid

/-- C6 witness: the amended theorem applied at a concrete input — the
empty store accepts the invalid name given that no sibling clash exists. -/
theorem C6_name_rules_witness :
    (createFolder { folders := [], files := [], blobs := [], cache := [] }
      1 "a/b" none).1 = Except.ok () :=
  (C6_name_rules_not_enforced.2.1
    { folders := [], files := [], blobs := [], cache := [] } 1 "a/b"
    (by decide) rfl).1

/-- C7: `uploadFile` writes the blob to the blob store before inserting
the metadata row: the blob is present after every outcome; when the row
insert fails the transaction rolls back (the file table is unchanged) but
the written blob is not removed; and if every pre-existing row referred to
a written blob, so does every row afterwards — the only possible
inconsistency introduced is an orphaned blob with no row. -/
theorem C7_upload_writes_blob_before_insert (db : DB) (userId : Nat)
    (fileName mimeType blobId : String) (size : Nat) (folderId : Option Nat)
    (insertFails : Bool)
    (hinv : ∀ fl ∈ db.files, ∃ b ∈ db.blobs, b.path = fl.file_path) :
    (∃ b ∈ (uploadFile db userId fileName mimeType size folderId blobId
        insertFails).2.1.blobs,
      b.path = savedRelPath userId blobId (extname fileName)) ∧
    (insertFails = true →
      (uploadFile db userId fileName mimeType size folderId blobId
        insertFails).1 = Except.error Err.operationFailed ∧
      (uploadFile db userId fileName mimeType size folderId blobId
        insertFails).2.1.files = db.files) ∧
    (∀ fl ∈ (uploadFile db userId fileName mimeType size folderId blobId
        insertFails).2.1.files,
      ∃ b ∈ (uploadFile db userId fileName mimeType size folderId blobId
        insertFails).2.1.blobs, b.path = fl.file_path) := by
  cases insertFails with
  | true =>
    refine ⟨?_, fun _ => ⟨rfl, rfl⟩, ?_⟩
    · refine ⟨⟨savedRelPath userId blobId (extname fileName), 0⟩, ?_, rfl⟩
      simp [uploadFile]
    · intro fl hfl
      have hfl' : fl ∈ db.files := hfl
      rcases hinv fl hfl' with ⟨b, hb, hbp⟩
      exact ⟨b, by simp [uploadFile]; exact Or.inl hb, hbp⟩
  | false =>
    refine ⟨?_, by intro h; exact absurd h (by simp), ?_⟩
    · refine ⟨⟨savedRelPath userId blobId (extname fileName), 0⟩, ?_, rfl⟩
      simp [uploadFile]
    · intro fl hfl
      simp only [uploadFile, Bool.false_eq_true, if_false] at hfl
      rw [List.mem_append] at hfl
      rcases hfl with hfl | hfl
      · rcases hinv fl hfl with ⟨b, hb, hbp⟩
        exact ⟨b, by simp [uploadFile]; exact Or.inl hb, hbp⟩
      · have : fl = ⟨nextFileId db.files, userId, folderId, fileName,
          savedRelPath userId blobId (extname fileName), mimeType, size⟩ := by
          simpa using hfl
        refine ⟨⟨savedRelPath userId blobId (extname fileName), 0⟩,
          by simp [uploadFile], by rw [this]⟩

/-- C7 witness: the theorem applied at a concrete upload whose insert
fails: the result is a failure, the file table is unchanged (empty) and
the orphaned blob is on disk. -/
theorem C7_upload_witness :
    (uploadFile { folders := [], files := [], blobs := [], cache := [] }
      1 "x.txt" "text/plain" 10 none "abcdef00" true).1
    = Except.error Err.operationFailed :=
  ((C7_upload_writes_blob_before_insert
    { folders := [], files := [], blobs := [], cache := [] }
    1 "x.txt" "text/plain" "abcdef00" 10 none true
    (by intro fl hfl; simp at hfl)).2.1 rfl).1

theorem takeWhile_append_of_all {α : Type} {p : α → Bool} (a b : List α)
    (h : ∀ e ∈ a, p e = true) :
    (a ++ b).takeWhile p = a ++ b.takeWhile p := by
  induction a with
  | nil => simp
  | cons x xs ih =>
    have hx := h x (by simp)
    simp only [List.cons_append, List.takeWhile_cons, hx, if_true]
    rw [ih (fun e he => h e (by simp [he]))]

theorem takeWhile_append_of_exists_not {α : Type} {p : α → Bool}
    (a b : List α) (h : ∃ e ∈ a, p e = false) :
    (a ++ b).takeWhile p = a.takeWhile p := by
  induction a with
  | nil => rcases h with ⟨e, he, _⟩; simp at he
  | cons x xs ih =>
    by_cases hx : p x = true
    · simp only [List.cons_append, List.takeWhile_cons, hx, if_true]
      rcases h with ⟨e, he, hpe⟩
      rcases List.mem_cons.mp he with rfl | he'
      · rw [hx] at hpe; exact absurd hpe (by simp)
      · rw [ih ⟨e, he', hpe⟩]
    · rw [Bool.not_eq_true] at hx
      simp [List.takeWhile_cons, hx]

theorem invalBefore_append_left (a b : List Ev)
    (h : invalBeforeFirstCommit a = true) :
    invalBeforeFirstCommit (a ++ b) = true := by
  unfold invalBeforeFirstCommit at *
  induction a with
  | nil => simp at h
  | cons x xs ih =>
    by_cases hx : (!(x == Ev.evCommit)) = true
    · rw [List.cons_append,
        @List.takeWhile_cons_of_pos _ (fun e => !(e == Ev.evCommit)) x (xs ++ b) hx,
        List.any_cons]
      rw [@List.takeWhile_cons_of_pos _ (fun e => !(e == Ev.evCommit)) x xs hx,
        List.any_cons] at h
      rcases Bool.or_eq_true_iff.mp h with h1 | h1
      · rw [h1]; simp
      · rw [ih h1]; simp
    · rw [@List.takeWhile_cons_of_neg _ (fun e => !(e == Ev.evCommit)) x xs hx] at h
      simp at h

theorem invalBefore_append_no_commit (a b : List Ev)
    (hnc : ∀ e ∈ a, (e == Ev.evCommit) = false) :
    invalBeforeFirstCommit (a ++ b) =
      (a.any isCacheInval || invalBeforeFirstCommit b) := by
  unfold invalBeforeFirstCommit
  rw [takeWhile_append_of_all a b (fun e he => by rw [hnc e he]; rfl)]
  rw [List.any_append]

theorem noInvalAfter_append (a b : List Ev) (hc : Ev.evCommit ∈ b) :
    noInvalAfterLastCommit (a ++ b) = noInvalAfterLastCommit b := by
  unfold noInvalAfterLastCommit
  rw [List.reverse_append]
  rw [takeWhile_append_of_exists_not b.reverse a.reverse
    ⟨Ev.evCommit, by simpa using hc, by simp⟩]

/-- Every trace of `deleteFile` either contains no commit (the not-found
rollback) or has a cache invalidation before its first commit and no
invalidation after its last commit. -/
theorem deleteFile_trace_forms (db : DB) (u fid : Nat) :
    (∀ e ∈ (deleteFile db u fid).2.2, (e == Ev.evCommit) = false) ∨
    (invalBeforeFirstCommit (deleteFile db u fid).2.2 = true ∧
      Ev.evCommit ∈ (deleteFile db u fid).2.2 ∧
      noInvalAfterLastCommit (deleteFile db u fid).2.2 = true) := by
  unfold deleteFile
  cases hfind : db.files.find? (fun fl => fl.file_id == fid && fl.user_id == u) with
  | none =>
    left
    intro e he
    simp only [List.mem_cons, List.not_mem_nil, or_false] at he
    rcases he with rfl | rfl | rfl <;> rfl
  | some file =>
    right
    by_cases htr : truthy file.folder_id = true
    · simp [htr, invalBeforeFirstCommit, noInvalAfterLastCommit, isCacheInval]
    · rw [Bool.not_eq_true] at htr
      simp [htr, invalBeforeFirstCommit, noInvalAfterLastCommit, isCacheInval]

/-- The file-deletion loop of `deleteFolder` preserves the disjunction
"the trace so far has no commit, or some invalidation precedes its first
commit". -/
theorem deleteDirectFiles_trace (u : Nat) (l : List FileRow) (db : DB)
    (tr : List Ev)
    (h : (∀ e ∈ tr, (e == Ev.evCommit) = false) ∨
      invalBeforeFirstCommit tr = true) :
    (∀ e ∈ (deleteDirectFiles u l db tr).2, (e == Ev.evCommit) = false) ∨
      invalBeforeFirstCommit (deleteDirectFiles u l db tr).2 = true := by
  induction l generalizing db tr with
  | nil => exact h
  | cons f rest ih =>
    unfold deleteDirectFiles
    apply ih
    rcases deleteFile_trace_forms db u f.file_id with hs | hs
    · rcases h with h | h
      · exact Or.inl (fun e he => by
          rcases List.mem_append.mp he with he | he
          · exact h e he
          · exact hs e he)
      · exact Or.inr (invalBefore_append_left _ _ h)
    · rcases h with h | h
      · right
        rw [invalBefore_append_no_commit _ _ h, hs.1]
        simp
      · exact Or.inr (invalBefore_append_left _ _ h)

theorem createFolder_trace_ok (db : DB) (u : Nat) (nm : String)
    (p : Option Nat)
    (hok : (createFolder db u nm p).1 = Except.ok ()) :
    invalBeforeFirstCommit (createFolder db u nm p).2.2 = true ∧
    noInvalAfterLastCommit (createFolder db u nm p).2.2 = true := by
  unfold createFolder at hok ⊢
  by_cases h1 : (truthy p && (db.folders.filter (fun f =>
      f.folder_id == p.getD 0 && f.user_id == u)).isEmpty) = true
  · rw [if_pos h1] at hok; exact absurd hok (by simp)
  · rw [if_neg (by rw [Bool.not_eq_true] at h1 ⊢; exact h1)] at hok ⊢
    by_cases h2 : (!(db.folders.filter (fun f =>
        f.user_id == u && f.name == nm &&
        (if truthy p then f.parent_folder_id == p
         else f.parent_folder_id == none))).isEmpty) = true
    · rw [if_pos h2] at hok; exact absurd hok (by simp)
    · rw [if_neg (by rw [Bool.not_eq_true] at h2 ⊢; exact h2)] at hok ⊢
      dsimp only at hok ⊢
      split at hok
      · exact absurd hok (by simp)
      · rename_i h3
        rw [if_neg h3]
        by_cases htp : truthy p = true
        · simp [htp, invalBeforeFirstCommit, noInvalAfterLastCommit,
            isCacheInval]
        · rw [Bool.not_eq_true] at htp
          simp [htp, invalBeforeFirstCommit, noInvalAfterLastCommit,
            isCacheInval]

theorem renameFolder_trace_ok (db : DB) (u fid : Nat) (nm : String)
    (hok : (renameFolder db u fid nm).1 = Except.ok ()) :
    invalBeforeFirstCommit (renameFolder db u fid nm).2.2 = true ∧
    noInvalAfterLastCommit (renameFolder db u fid nm).2.2 = true := by
  unfold renameFolder at hok ⊢
  revert hok
  cases hfind : db.folders.find? (fun f => f.folder_id == fid && f.user_id == u) with
  | none => intro hok; exact absurd hok (by simp)
  | some folder =>
    intro hok
    dsimp only at hok ⊢
    by_cases h2 : (!(db.folders.filter (fun f =>
        f.user_id == u && f.name == nm && f.folder_id != fid &&
        (if truthy folder.parent_folder_id then
          f.parent_folder_id == folder.parent_folder_id
         else f.parent_folder_id == none))).isEmpty) = true
    · rw [if_pos h2] at hok; exact absurd hok (by simp)
    · rw [if_neg (by rw [Bool.not_eq_true] at h2 ⊢; exact h2)] at hok ⊢
      by_cases htp : truthy folder.parent_folder_id = true
      · simp [htp, invalBeforeFirstCommit, noInvalAfterLastCommit,
          isCacheInval]
      · rw [Bool.not_eq_true] at htp
        simp [htp, invalBeforeFirstCommit, noInvalAfterLastCommit,
          isCacheInval]

theorem moveFolderFinish_trace_ok (db : DB) (u fid : Nat)
    (np : Option Nat) (folder : Folder) (pre : List Ev)
    (hok : (moveFolderFinish db u fid np folder pre).1 = Except.ok ())
    (hpre : ∀ e ∈ pre, (e == Ev.evCommit) = false)
    (hpreni : pre.any isCacheInval = false) :
    invalBeforeFirstCommit (moveFolderFinish db u fid np folder pre).2.2 = true ∧
    noInvalAfterLastCommit (moveFolderFinish db u fid np folder pre).2.2 = true := by
  unfold moveFolderFinish at hok ⊢
  dsimp only at hok ⊢
  split at hok
  · exact absurd hok (by simp)
  · rename_i h3
    rw [if_neg h3]
    by_cases hop : truthy folder.parent_folder_id = true <;>
      by_cases hnp : truthy np = true <;>
      simp only [hop, hnp, Bool.false_eq_true, if_false, if_true] <;>
      constructor
    all_goals
      first
      | (rw [List.append_assoc, List.append_assoc, List.append_assoc,
            invalBefore_append_no_commit _ _ hpre, hpreni]
         simp [invalBeforeFirstCommit, isCacheInval])
      | (rw [List.append_assoc, List.append_assoc, List.append_assoc,
            noInvalAfter_append _ _ (by simp)]
         simp [noInvalAfterLastCommit, isCacheInval])

theorem moveFolder_trace_ok (db : DB) (u fid : Nat) (np : Option Nat)
    (hok : (moveFolder db u fid np).1 = Except.ok ()) :
    invalBeforeFirstCommit (moveFolder db u fid np).2.2 = true ∧
    noInvalAfterLastCommit (moveFolder db u fid np).2.2 = true := by
  unfold moveFolder at hok ⊢
  revert hok
  cases hfind : db.folders.find? (fun f => f.folder_id == fid && f.user_id == u) with
  | none => intro hok; exact absurd hok (by simp)
  | some folder =>
    intro hok
    dsimp only at hok ⊢
    by_cases hself : (some fid == np) = true
    · rw [if_pos hself] at hok; exact absurd hok (by simp)
    · rw [if_neg hself] at hok ⊢
      by_cases hnp : truthy np = true
      · rw [if_pos hnp] at hok ⊢
        by_cases hpe : (db.folders.filter (fun f =>
            f.folder_id == np.getD 0 && f.user_id == u)).isEmpty = true
        · rw [if_pos hpe] at hok; exact absurd hok (by simp)
        · rw [if_neg hpe] at hok ⊢
          by_cases hdesc : isDescendant db.folders (db.folders.length + 1)
              fid (np.getD 0) = true
          · rw [if_pos hdesc] at hok; exact absurd hok (by simp)
          · rw [if_neg hdesc] at hok ⊢
            by_cases hname : (!(db.folders.filter (fun f =>
                f.user_id == u && f.name == folder.name &&
                f.parent_folder_id == some (np.getD 0))).isEmpty) = true
            · rw [if_pos hname] at hok; exact absurd hok (by simp)
            · rw [if_neg hname] at hok ⊢
              exact moveFolderFinish_trace_ok db u fid np folder _ hok
                (by intro e he; fin_cases he <;> rfl) (by rfl)
      · rw [if_neg hnp] at hok ⊢
        by_cases hname : (!(db.folders.filter (fun f =>
            f.user_id == u && f.name == folder.name &&
            f.parent_folder_id == none)).isEmpty) = true
        · rw [if_pos hname] at hok; exact absurd hok (by simp)
        · rw [if_neg hname] at hok ⊢
          exact moveFolderFinish_trace_ok db u fid np folder _ hok
            (by intro e he; fin_cases he <;> rfl) (by rfl)

theorem uploadFile_trace_ok (db : DB) (u : Nat) (fileName mimeType : String)
    (size : Nat) (folderId : Option Nat) (blobId : String) (insertFails : Bool)
    (hok : (uploadFile db u fileName mimeType size folderId blobId
      insertFails).1 = Except.ok ()) :
    invalBeforeFirstCommit (uploadFile db u fileName mimeType size folderId
      blobId insertFails).2.2 = true ∧
    noInvalAfterLastCommit (uploadFile db u fileName mimeType size folderId
      blobId insertFails).2.2 = true := by
  cases insertFails with
  | true => exact absurd hok (by simp [uploadFile])
  | false =>
    unfold uploadFile
    by_cases htf : truthy folderId = true
    · simp [htf, invalBeforeFirstCommit, noInvalAfterLastCommit, isCacheInval]
    · rw [Bool.not_eq_true] at htf
      simp [htf, invalBeforeFirstCommit, noInvalAfterLastCommit, isCacheInval]

theorem deleteFile_trace_ok (db : DB) (u fid : Nat)
    (hok : (deleteFile db u fid).1 = Except.ok ()) :
    invalBeforeFirstCommit (deleteFile db u fid).2.2 = true ∧
    noInvalAfterLastCommit (deleteFile db u fid).2.2 = true := by
  rcases deleteFile_trace_forms db u fid with hs | hs
  · exfalso
    unfold deleteFile at hok hs
    revert hok hs
    cases hfind : db.files.find? (fun fl => fl.file_id == fid && fl.user_id == u) with
    | none => intro hok _; exact absurd hok (by simp)
    | some file =>
      intro hok hs
      dsimp only at hs
      by_cases htr : truthy file.folder_id = true
      · simp only [htr, if_true] at hs
        have := hs Ev.evCommit (by simp)
        simp at this
      · simp only [htr, Bool.false_eq_true, if_false] at hs
        have := hs Ev.evCommit (by simp)
        simp at this
  · exact ⟨hs.1, hs.2.2⟩

theorem deleteFolder_trace_ok (db : DB) (u fid : Nat) (failDelete : Bool)
    (hok : (deleteFolder db u fid failDelete).1 = Except.ok ()) :
    invalBeforeFirstCommit (deleteFolder db u fid failDelete).2.2 = true ∧
    noInvalAfterLastCommit (deleteFolder db u fid failDelete).2.2 = true := by
  unfold deleteFolder at hok ⊢
  revert hok
  cases hfind : db.folders.find? (fun f => f.folder_id == fid && f.user_id == u) with
  | none => intro hok; exact absurd hok (by simp)
  | some folder =>
    intro hok
    dsimp only at hok ⊢
    cases failDelete with
    | true => exact absurd hok (by simp)
    | false =>
      simp only [Bool.false_eq_true, if_false] at hok ⊢
      have hP := deleteDirectFiles_trace u
        (db.files.filter (fun fl => fl.folder_id == some fid)) db
        [Ev.evBegin, Ev.evSelect, Ev.evSelect]
        (Or.inl (by intro e he; fin_cases he <;> rfl))
      constructor
      · rw [List.append_assoc, List.append_assoc]
        rcases hP with hnc | hib
        · rw [invalBefore_append_no_commit _ _ hnc]
          by_cases hop : truthy folder.parent_folder_id = true
          · simp [hop, invalBeforeFirstCommit, isCacheInval]
          · rw [Bool.not_eq_true] at hop
            simp [hop, invalBeforeFirstCommit, isCacheInval]
        · exact invalBefore_append_left _ _ hib
      · rw [List.append_assoc, List.append_assoc]
        rw [noInvalAfter_append _ _ (by
          by_cases hop : truthy folder.parent_folder_id = true
          · simp [hop]
          · rw [Bool.not_eq_true] at hop; simp [hop])]
        by_cases hop : truthy folder.parent_folder_id = true
        · simp [hop, noInvalAfterLastCommit, isCacheInval]
        · rw [Bool.not_eq_true] at hop
          simp [hop, noInvalAfterLastCommit, isCacheInval]

/-- C5 counterexample: in a concrete successful `createFolder` run the
cache invalidations (`user:1:folders` and the tree pattern) are performed
before the commit, so invalidation does not happen strictly after the
transaction has committed. -/
theorem C5_counterexample_invalidation_precedes_commit :
    (createFolder { folders := [], files := [], blobs := [], cache := [] }
      1 "Docs" none).2.2
    = [Ev.evBegin, Ev.evSelect, Ev.evInsert,
       Ev.evCacheDel (CKey.userFolders 1), Ev.evCacheDelPattern 1,
       Ev.evCommit, Ev.evSelect] ∧
    invalBeforeFirstCommit
      (createFolder { folders := [], files := [], blobs := [], cache := [] }
        1 "Docs" none).2.2 = true := ⟨rfl, rfl⟩

/-- C5 amended: in every successful run of each of the six mutating
operations, the cache invalidations happen inside the transaction —
after the mutating store statements but before that operation commits —
never after the commit: every trace has an invalidation before its first
commit and none after its last commit. -/
theorem C5_invalidation_inside_transaction :
    (∀ (db : DB) (u : Nat) (nm : String) (p : Option Nat),
      (createFolder db u nm p).1 = Except.ok () →
      invalBeforeFirstCommit (createFolder db u nm p).2.2 = true ∧
      noInvalAfterLastCommit (createFolder db u nm p).2.2 = true) ∧
    (∀ (db : DB) (u fid : Nat) (nm : String),
      (renameFolder db u fid nm).1 = Except.ok () →
      invalBeforeFirstCommit (renameFolder db u fid nm).2.2 = true ∧
      noInvalAfterLastCommit (renameFolder db u fid nm).2.2 = true) ∧
    (∀ (db : DB) (u fid : Nat) (np : Option Nat),
      (moveFolder db u fid np).1 = Except.ok () →
      invalBeforeFirstCommit (moveFolder db u fid np).2.2 = true ∧
      noInvalAfterLastCommit (moveFolder db u fid np).2.2 = true) ∧
    (∀ (db : DB) (u fid : Nat) (failDelete : Bool),
      (deleteFolder db u fid failDelete).1 = Except.ok () →
      invalBeforeFirstCommit (deleteFolder db u fid failDelete).2.2 = true ∧
      noInvalAfterLastCommit (deleteFolder db u fid failDelete).2.2 = true) ∧
    (∀ (db : DB) (u : Nat) (fileName mimeType : String) (size : Nat)
        (folderId : Option Nat) (blobId : String) (insertFails : Bool),
      (uploadFile db u fileName mimeType size folderId blobId insertFails).1
        = Except.ok () →
      invalBeforeFirstCommit (uploadFile db u fileName mimeType size folderId
        blobId insertFails).2.2 = true ∧
      noInvalAfterLastCommit (uploadFile db u fileName mimeType size folderId
        blobId insertFails).2.2 = true) ∧
    (∀ (db : DB) (u fid : Nat),
      (deleteFile db u fid).1 = Except.ok () →
      invalBeforeFirstCommit (deleteFile db u fid).2.2 = true ∧
      noInvalAfterLastCommit (deleteFile db u fid).2.2 = true) :=
  ⟨fun db u nm p => createFolder_trace_ok db u nm p,
   fun db u fid nm => renameFolder_trace_ok db u fid nm,
   fun db u fid np => moveFolder_trace_ok db u fid np,
   fun db u fid fd => deleteFolder_trace_ok db u fid fd,
   fun db u fn mt sz fo bi inf => uploadFile_trace_ok db u fn mt sz fo bi inf,
   fun db u fid => deleteFile_trace_ok db u fid⟩

/-- C5 witness: the amended theorem applied to the concrete successful
`createFolder` run of the counterexample state. -/
theorem C5_invalidation_witness :
    invalBeforeFirstCommit
      (createFolder { folders := [], files := [], blobs := [], cache := [] }
        1 "Docs" none).2.2 = true ∧
    noInvalAfterLastCommit
      (createFolder { folders := [], files := [], blobs := [], cache := [] }
        1 "Docs" none).2.2 = true :=
  C5_invalidation_inside_transaction.1
    { folders := [], files := [], blobs := [], cache := [] } 1 "Docs" none rfl

theorem deleteFile_folders (db : DB) (u fid : Nat) :
    (deleteFile db u fid).2.1.folders = db.folders := by
  unfold deleteFile
  cases db.files.find? (fun fl => fl.file_id == fid && fl.user_id == u) <;> rfl

theorem deleteFile_files_sub (db : DB) (u fid : Nat) :
    ∀ fl ∈ (deleteFile db u fid).2.1.files, fl ∈ db.files := by
  unfold deleteFile
  cases db.files.find? (fun fl => fl.file_id == fid && fl.user_id == u) with
  | none => exact fun fl h => h
  | some file => exact fun fl h => List.mem_of_mem_filter h

theorem deleteFile_removes (db : DB) (u fid : Nat) (fl : FileRow)
    (hfl : fl ∈ db.files) (hid : fl.file_id = fid) (hu : fl.user_id = u) :
    fl ∉ (deleteFile db u fid).2.1.files := by
  unfold deleteFile
  cases hfind : db.files.find? (fun g => g.file_id == fid && g.user_id == u) with
  | none =>
    exfalso
    have := List.find?_eq_none.mp hfind fl hfl
    simp [hid, hu] at this
  | some file =>
    intro hmem
    have := List.of_mem_filter hmem
    simp [hid] at this

theorem deleteFile_keeps (db : DB) (u fid : Nat) (fl : FileRow)
    (hfl : fl ∈ db.files) (hid : fl.file_id ≠ fid) :
    fl ∈ (deleteFile db u fid).2.1.files := by
  unfold deleteFile
  cases db.files.find? (fun g => g.file_id == fid && g.user_id == u) with
  | none => exact hfl
  | some file => exact List.mem_filter.mpr ⟨hfl, by simp [hid]⟩

theorem deleteDirectFiles_folders (u : Nat) (l : List FileRow) (db : DB)
    (tr : List Ev) :
    (deleteDirectFiles u l db tr).1.folders = db.folders := by
  induction l generalizing db tr with
  | nil => rfl
  | cons g rest ih =>
    unfold deleteDirectFiles
    rw [ih, deleteFile_folders]

theorem deleteDirectFiles_files_sub (u : Nat) (l : List FileRow) (db : DB)
    (tr : List Ev) :
    ∀ fl ∈ (deleteDirectFiles u l db tr).1.files, fl ∈ db.files := by
  induction l generalizing db tr with
  | nil => exact fun fl h => h
  | cons g rest ih =>
    intro fl h
    unfold deleteDirectFiles at h
    exact deleteFile_files_sub db u g.file_id fl (ih _ _ fl h)

theorem deleteDirectFiles_removes (u : Nat) (l : List FileRow) (db : DB)
    (tr : List Ev) (fl : FileRow)
    (hl : ∃ g ∈ l, g.file_id = fl.file_id) (hfl : fl ∈ db.files)
    (hu : fl.user_id = u) :
    fl ∉ (deleteDirectFiles u l db tr).1.files := by
  induction l generalizing db tr with
  | nil => rcases hl with ⟨g, hg, _⟩; simp at hg
  | cons g rest ih =>
    unfold deleteDirectFiles
    rcases hl with ⟨g', hg', hgid⟩
    rcases List.mem_cons.mp hg' with rfl | hg'rest
    · intro hmem
      exact deleteFile_removes db u g'.file_id fl hfl hgid.symm hu
        (deleteDirectFiles_files_sub u rest _ _ fl hmem)
    · by_cases hsame : fl.file_id = g.file_id
      · intro hmem
        exact deleteFile_removes db u g.file_id fl hfl hsame hu
          (deleteDirectFiles_files_sub u rest _ _ fl hmem)
      · exact ih _ _ ⟨g', hg'rest, hgid⟩
          (deleteFile_keeps db u g.file_id fl hfl (fun h => hsame h))

/-- C2 counterexample: folder 1 of owner 1 contains file 10 and subfolder
2; injecting a store failure at the folder-row deletion makes the call
fail, and afterwards the folder rows are all still present while the file
row (and its blob) are gone — a partially deleted subtree has been
persisted, because `deleteFile` committed on its own connection. -/
theorem C2_counterexample_partial_delete_persisted :
    (deleteFolder
      { folders := [⟨1, 1, none, "Docs"⟩, ⟨2, 1, some 1, "Sub"⟩],
        files := [⟨10, 1, some 1, "a.txt", "/user_1/aaa/bbb/x.txt",
          "text/plain", 10⟩],
        blobs := [⟨"/user_1/aaa/bbb/x.txt", 0⟩], cache := [] }
      1 1 true).1 = Except.error Err.operationFailed ∧
    (deleteFolder
      { folders := [⟨1, 1, none, "Docs"⟩, ⟨2, 1, some 1, "Sub"⟩],
        files := [⟨10, 1, some 1, "a.txt", "/user_1/aaa/bbb/x.txt",
          "text/plain", 10⟩],
        blobs := [⟨"/user_1/aaa/bbb/x.txt", 0⟩], cache := [] }
      1 1 true).2.1.folders
      = [⟨1, 1, none, "Docs"⟩, ⟨2, 1, some 1, "Sub"⟩] ∧
    (deleteFolder
      { folders := [⟨1, 1, none, "Docs"⟩, ⟨2, 1, some 1, "Sub"⟩],
        files := [⟨10, 1, some 1, "a.txt", "/user_1/aaa/bbb/x.txt",
          "text/plain", 10⟩],
        blobs := [⟨"/user_1/aaa/bbb/x.txt", 0⟩], cache := [] }
      1 1 true).2.1.files = [] :=
  ⟨rfl, rfl, rfl⟩

/-- C2 amended: only the folder-row deletions of `deleteFolder` are
transactional: when the final `DELETE FROM folders` statements fail, the
call returns a failure and the folder table is exactly as before (its own
transaction rolled back), but the deletions of the files directly inside
the folder were performed by `deleteFile` on separate connections with
their own transactions, already committed: every owned file directly
inside the folder is gone from the store even though the operation
failed. -/
theorem C2_only_folder_rows_transactional (db : DB) (u fid : Nat)
    (folder : Folder)
    (hfind : db.folders.find?
      (fun f => f.folder_id == fid && f.user_id == u) = some folder) :
    (deleteFolder db u fid true).1 = Except.error Err.operationFailed ∧
    (deleteFolder db u fid true).2.1.folders = db.folders ∧
    (∀ fl ∈ (deleteFolder db u fid true).2.1.files, fl ∈ db.files) ∧
    (∀ fl ∈ db.files, fl.folder_id = some fid → fl.user_id = u →
      fl ∉ (deleteFolder db u fid true).2.1.files) := by
  unfold deleteFolder
  rw [hfind]
  dsimp only
  refine ⟨rfl, deleteDirectFiles_folders _ _ _ _, ?_, ?_⟩
  · exact deleteDirectFiles_files_sub _ _ _ _
  · intro fl hfl hfo hu
    exact deleteDirectFiles_removes u _ db _ fl
      ⟨fl, List.mem_filter.mpr ⟨hfl, by simp [hfo]⟩, rfl⟩ hfl hu

/-- C2 witness: the amended theorem applied to the counterexample state. -/
theorem C2_only_folder_rows_transactional_witness :
    (deleteFolder
      { folders := [⟨1, 1, none, "Docs"⟩, ⟨2, 1, some 1, "Sub"⟩],
        files := [⟨10, 1, some 1, "a.txt", "/user_1/aaa/bbb/x.txt",
          "text/plain", 10⟩],
        blobs := [⟨"/user_1/aaa/bbb/x.txt", 0⟩], cache := [] }
      1 1 true).2.1.folders
    = [⟨1, 1, none, "Docs"⟩, ⟨2, 1, some 1, "Sub"⟩] :=
  (C2_only_folder_rows_transactional
    { folders := [⟨1, 1, none, "Docs"⟩, ⟨2, 1, some 1, "Sub"⟩],
      files := [⟨10, 1, some 1, "a.txt", "/user_1/aaa/bbb/x.txt",
        "text/plain", 10⟩],
      blobs := [⟨"/user_1/aaa/bbb/x.txt", 0⟩], cache := [] }
    1 1 ⟨1, 1, none, "Docs"⟩ rfl).2.1

theorem stripFirst_append (pre rest : String) :
    stripFirst (pre ++ rest) pre = rest := by
  unfold stripFirst
  rw [String.data_append]
  rw [if_pos (by rw [List.take_left])]
  rw [List.drop_left]

theorem mkdirp_mem (ds : List String) (d : String) : d ∈ mkdirp ds d := by
  unfold mkdirp
  by_cases h : ds.contains d
  · rw [if_pos h]; exact List.mem_of_elem_eq_true h
  · rw [if_neg h]; simp

theorem mkdirp_sub (ds : List String) (d : String) :
    ∀ x ∈ ds, x ∈ mkdirp ds d := by
  unfold mkdirp
  by_cases h : ds.contains d
  · rw [if_pos h]; exact fun x hx => hx
  · rw [if_neg h]; exact fun x hx => List.mem_append_left _ hx

theorem mkdirp_of_mem (ds : List String) (d : String) (h : d ∈ ds) :
    mkdirp ds d = ds := by
  unfold mkdirp
  rw [if_pos (List.elem_eq_true_of_mem h)]

/-- The full path `saveFile` writes to equals the storage root followed by
the stored relative path. -/
theorem saveFile_full_path (uploadDir : String) (userId : Nat)
    (blobId ext : String) :
    pjoin (pjoin (pjoin (pjoin uploadDir ("user_" ++ toString userId))
        (blobId.take 3)) ((blobId.drop 3).take 3)) (blobId ++ ext)
      = uploadDir ++ savedRelPath userId blobId ext := by
  unfold pjoin savedRelPath
  simp only [String.append_assoc]

theorem saveFile_relPath (uploadDir : String) (st : Storage) (userId : Nat)
    (bytes : List Nat) (originalFilename blobId : String) :
    (saveFile uploadDir st userId bytes originalFilename blobId).1.1
      = savedRelPath userId blobId (extname originalFilename) := by
  unfold saveFile
  dsimp only
  rw [saveFile_full_path, stripFirst_append]

theorem mkdirp_idem3 (ds : List String) (a b c : String) :
    mkdirp (mkdirp (mkdirp (mkdirp (mkdirp (mkdirp ds a) b) c) a) b) c
      = mkdirp (mkdirp (mkdirp ds a) b) c := by
  have ha : a ∈ mkdirp (mkdirp (mkdirp ds a) b) c :=
    mkdirp_sub _ _ _ (mkdirp_sub _ _ _ (mkdirp_mem _ _))
  have hb : b ∈ mkdirp (mkdirp (mkdirp ds a) b) c :=
    mkdirp_sub _ _ _ (mkdirp_mem _ _)
  have hc : c ∈ mkdirp (mkdirp (mkdirp ds a) b) c := mkdirp_mem _ _
  rw [mkdirp_of_mem (mkdirp (mkdirp (mkdirp ds a) b) c) a ha]
  rw [mkdirp_of_mem (mkdirp (mkdirp (mkdirp ds a) b) c) b hb]
  rw [mkdirp_of_mem (mkdirp (mkdirp (mkdirp ds a) b) c) c hc]

/-- C9 counterexample: on a concrete save (owner 1, blob id
`abcdef001122`, name `x.txt`, storage root `/srv/uploads`) the returned
path is `/user_1/abc/def/abcdef001122.txt`, which begins with the path
separator: it is a POSIX absolute path, contradicting the claim that the
returned path is never an absolute path. -/
theorem C9_counterexample_returned_path_is_absolute :
    (saveFile "/srv/uploads" ⟨[], []⟩ 1 [1, 2, 3] "x.txt" "abcdef001122").1.1
      = "/user_1/abc/def/abcdef001122.txt" ∧
    isAbsolutePath
      (saveFile "/srv/uploads" ⟨[], []⟩ 1 [1, 2, 3] "x.txt"
        "abcdef001122").1.1 = true := by
  rw [saveFile_relPath]
  constructor
  · decide
  · decide

/-- C9 amended: blob-store save places the bytes at
`uploadDir/user_OWNER/AAA/BBB/(blobId + extension)` where `AAA` and `BBB`
are the first six characters of the fresh blob id split three-and-three,
creates the three shard directories idempotently, and returns the full
path with the storage-root prefix stripped. The returned string begins
with the path separator (so it is syntactically an absolute POSIX path,
not a separator-free relative one), and prepending the storage root
yields exactly the written path. -/
theorem C9_saveFile_layout (uploadDir : String) (st : Storage)
    (userId : Nat) (bytes : List Nat) (originalFilename blobId : String) :
    (saveFile uploadDir st userId bytes originalFilename blobId).1.1
      = savedRelPath userId blobId (extname originalFilename) ∧
    isAbsolutePath
      (saveFile uploadDir st userId bytes originalFilename blobId).1.1
      = true ∧
    (uploadDir ++
        (saveFile uploadDir st userId bytes originalFilename blobId).1.1,
      bytes) ∈
      (saveFile uploadDir st userId bytes originalFilename blobId).2.blobsFS ∧
    (pjoin uploadDir ("user_" ++ toString userId) ∈
      (saveFile uploadDir st userId bytes originalFilename blobId).2.dirs ∧
     pjoin (pjoin uploadDir ("user_" ++ toString userId)) (blobId.take 3) ∈
      (saveFile uploadDir st userId bytes originalFilename blobId).2.dirs ∧
     pjoin (pjoin (pjoin uploadDir ("user_" ++ toString userId))
        (blobId.take 3)) ((blobId.drop 3).take 3) ∈
      (saveFile uploadDir st userId bytes originalFilename blobId).2.dirs) ∧
    (saveFile uploadDir
      (saveFile uploadDir st userId bytes originalFilename blobId).2
      userId bytes originalFilename blobId).2.dirs
      = (saveFile uploadDir st userId bytes originalFilename blobId).2.dirs := by
  refine ⟨saveFile_relPath uploadDir st userId bytes originalFilename blobId,
    ?_, ?_, ⟨?_, ?_, ?_⟩, ?_⟩
  · rw [saveFile_relPath]
    unfold isAbsolutePath savedRelPath
    rw [String.data_append]
    rfl
  · rw [saveFile_relPath]
    unfold saveFile
    dsimp only
    rw [← saveFile_full_path]
    exact List.mem_cons_self _ _
  · unfold saveFile
    dsimp only
    exact mkdirp_sub _ _ _ (mkdirp_sub _ _ _ (mkdirp_mem _ _))
  · unfold saveFile
    dsimp only
    exact mkdirp_sub _ _ _ (mkdirp_mem _ _)
  · unfold saveFile
    dsimp only
    exact mkdirp_mem _ _
  · exact mkdirp_idem3 st.dirs _ _ _

theorem parentStep_of_mem {fs : List Folder} (hnd : (ids fs).Nodup)
    {f : Folder} (hf : f ∈ fs) :
    parentStep fs f.folder_id = f.parent_folder_id := by
  unfold parentStep
  rw [rowOf_eq_of_mem hnd hf]
  rfl

/-- Forward bridge: every id collected by the recursive `getSubfolders`
helper is a proper descendant of the starting folder. -/
theorem anc_of_collect (fs : List Folder) (hnd : (ids fs).Nodup)
    (fuel parentId x : Nat)
    (hx : x ∈ collectSubfolderIds fs fuel parentId) :
    ∃ k, 1 ≤ k ∧ ancK fs k x = some parentId := by
  induction fuel generalizing parentId with
  | zero => simp [collectSubfolderIds] at hx
  | succ fuel ih =>
    unfold collectSubfolderIds at hx
    rw [List.mem_flatMap] at hx
    rcases hx with ⟨f, hfmem, hxin⟩
    have hfp : f.parent_folder_id = some parentId := by
      have := List.of_mem_filter hfmem
      simpa using this
    have hfmem' : f ∈ fs := List.mem_of_mem_filter hfmem
    have hstep : ancK fs 1 f.folder_id = some parentId := by
      rw [ancK_succ, parentStep_of_mem hnd hfmem', hfp]
      rfl
    rcases List.mem_cons.mp hxin with rfl | hxsub
    · exact ⟨1, le_refl 1, hstep⟩
    · rcases ih f.folder_id hxsub with ⟨k, hk1, hk⟩
      refine ⟨k + 1, by omega, ?_⟩
      rw [ancK_add fs k 1 x, hk, Option.some_bind, hstep]

/-- Backward bridge: with enough fuel the recursive helper reaches every
proper descendant. -/
theorem collect_of_anc (fs : List Folder)
    (k fuel parentId x : Nat) (hk : 1 ≤ k) (hfuel : k ≤ fuel)
    (h : ancK fs k x = some parentId) :
    x ∈ collectSubfolderIds fs fuel parentId := by
  induction k generalizing parentId fuel with
  | zero => omega
  | succ k ih =>
    -- split the chain at its last step
    have hsplit : ancK fs (k + 1) x = (ancK fs k x).bind (ancK fs 1) :=
      ancK_add fs k 1 x
    rcases ancK_alive fs k (k + 1) x parentId (by omega) h with ⟨y, hy⟩
    rw [hsplit, hy, Option.some_bind] at h
    -- the row of y is a child of parentId
    rw [ancK_succ] at h
    cases hpy : parentStep fs y with
    | none => rw [hpy] at h; exact absurd h (by simp)
    | some p =>
      rw [hpy] at h
      have hp : p = parentId := by simpa [ancK] using h
      subst hp
      unfold parentStep at hpy
      cases hrow : rowOf fs y with
      | none => rw [hrow] at hpy; exact absurd hpy (by simp)
      | some g =>
        rw [hrow] at hpy
        simp only [Option.some_bind] at hpy
        rcases rowOf_mem hrow with ⟨hgmem, hgid⟩
        cases fuel with
        | zero => omega
        | succ fuel =>
          unfold collectSubfolderIds
          rw [List.mem_flatMap]
          refine ⟨g, List.mem_filter.mpr ⟨hgmem, by simp [hpy]⟩, ?_⟩
          cases k with
          | zero =>
            have hxy : x = y := by simpa [ancK] using hy
            subst hxy
            rw [hgid]
            simp
          | succ k =>
            right
            exact ih fuel g.folder_id (by omega) (by omega)
              (by rw [hgid]; exact hy)

theorem cascade_seed_sub (fs : List Folder) (n : Nat) (seed : List Nat) :
    ∀ x ∈ seed, x ∈ cascadeClosure fs n seed := by
  induction n generalizing seed with
  | zero => exact fun x hx => hx
  | succ n ih =>
    intro x hx
    unfold cascadeClosure
    dsimp only
    split
    · exact hx
    · exact ih _ x (List.mem_append_left _ hx)

/-- The cascade closure stays inside any child-closed property that holds
on the seed. -/
theorem cascade_sound (fs : List Folder)
    (P : Nat → Prop)
    (hcl : ∀ f ∈ fs, ∀ p, f.parent_folder_id = some p → P p → P f.folder_id)
    (n : Nat) (seed : List Nat) (hseed : ∀ x ∈ seed, P x) :
    ∀ x ∈ cascadeClosure fs n seed, P x := by
  induction n generalizing seed with
  | zero => exact hseed
  | succ n ih =>
    intro x hx
    unfold cascadeClosure at hx
    dsimp only at hx
    split at hx
    · exact hseed x hx
    · refine ih _ ?_ x hx
      intro z hz
      rcases List.mem_append.mp hz with hz | hz
      · exact hseed z hz
      · rw [List.mem_map] at hz
        rcases hz with ⟨f, hf, rfl⟩
        have hf' := List.of_mem_filter hf
        have hfmem := List.mem_of_mem_filter hf
        rw [Bool.and_eq_true] at hf'
        cases hfp : f.parent_folder_id with
        | none => rw [hfp] at hf'; simp at hf'
        | some p =>
          rw [hfp] at hf'
          have hpdead : p ∈ seed := by
            have := hf'.2
            simpa using this
          exact hcl f hfmem p hfp (hseed p hpdead)

theorem cascade_folders_mem (fs : List Folder) (fls : List FileRow)
    (seed : List Nat) (g : Folder)
    (hg : g ∈ (deleteFolderRowsCascade fs fls seed).1) :
    g ∈ fs ∧ g.folder_id ∉ cascadeClosure fs fs.length seed := by
  unfold deleteFolderRowsCascade at hg
  dsimp only at hg
  refine ⟨List.mem_of_mem_filter hg, ?_⟩
  have := List.of_mem_filter hg
  intro hmem
  have hc : (cascadeClosure fs fs.length seed).contains g.folder_id = true :=
    List.elem_eq_true_of_mem hmem
  rw [hc] at this
  simp at this

theorem cascade_files_mem (fs : List Folder) (fls : List FileRow)
    (seed : List Nat) (fl : FileRow)
    (hfl : fl ∈ (deleteFolderRowsCascade fs fls seed).2) :
    fl ∈ fls ∧ ∀ q, fl.folder_id = some q →
      q ∉ cascadeClosure fs fs.length seed := by
  unfold deleteFolderRowsCascade at hfl
  dsimp only at hfl
  refine ⟨List.mem_of_mem_filter hfl, ?_⟩
  have hkeep := List.of_mem_filter hfl
  intro q hq hmem
  rw [hq] at hkeep
  dsimp only at hkeep
  have hc : (cascadeClosure fs fs.length seed).contains q = true :=
    List.elem_eq_true_of_mem hmem
  rw [hc] at hkeep
  simp at hkeep

/-- C1: for every owner and folder the owner has, a successful
`deleteFolder` removes from the metadata store every descendant folder
row (`ancK ... = some fid` is "the chain of parent pointers from this row
reaches the deleted folder", with `k = 0` meaning the folder itself) and
every file row whose folder lies in the subtree, including files in
descendant folders; afterwards no folder or file row references any
deleted folder id. The application code deletes the direct files and the
enumerated descendant folder rows; files of descendant folders are
removed by the `ON DELETE CASCADE` foreign key of the schema, which the
model includes. -/
theorem C1_deleteFolder_removes_subtree (db : DB) (u fid : Nat)
    (folder : Folder) (hwf : WF db.folders) (hac : Acyclic db.folders)
    (hfound : db.folders.find? (fun f => f.folder_id == fid && f.user_id == u)
      = some folder) :
    (deleteFolder db u fid false).1 = Except.ok () ∧
    (∀ g ∈ db.folders, (∃ k, ancK db.folders k g.folder_id = some fid) →
      g ∉ (deleteFolder db u fid false).2.1.folders) ∧
    (∀ fl ∈ db.files, (∃ q k, fl.folder_id = some q ∧
        ancK db.folders k q = some fid) →
      fl ∉ (deleteFolder db u fid false).2.1.files) ∧
    (∀ g ∈ (deleteFolder db u fid false).2.1.folders,
      (¬ ∃ k, ancK db.folders k g.folder_id = some fid) ∧
      (∀ p, g.parent_folder_id = some p →
        ¬ ∃ k, ancK db.folders k p = some fid)) ∧
    (∀ fl ∈ (deleteFolder db u fid false).2.1.files,
      ∀ q, fl.folder_id = some q →
        ¬ ∃ k, ancK db.folders k q = some fid) := by
  have hnd := hwf.nodup
  have hcl := hwf.closed
  -- any folder id whose parent chain reaches fid in at least one step is
  -- enumerated by the recursive getSubfolders helper
  have hcollect : ∀ x k, 1 ≤ k → ancK db.folders k x = some fid →
      x ∈ collectSubfolderIds db.folders (db.folders.length + 1) fid := by
    intro x k hk1 hk
    have hxids : x ∈ ids db.folders := by
      rcases ancK_alive db.folders 1 k x fid hk1 hk with ⟨y, hy⟩
      rw [ancK_succ] at hy
      cases hp : parentStep db.folders x with
      | none => rw [hp] at hy; exact absurd hy (by simp)
      | some p =>
        unfold parentStep rowOf at hp
        cases hf : db.folders.find? (fun f => f.folder_id == x) with
        | none => rw [hf] at hp; exact absurd hp (by simp)
        | some f =>
          rcases rowOf_mem hf with ⟨hfm, hfid⟩
          exact hfid ▸ List.mem_map_of_mem Folder.folder_id hfm
    have hbound := ancK_length_bound db.folders hcl hac hxids hk
    have hlen : (ids db.folders).length = db.folders.length :=
      List.length_map _ _
    exact collect_of_anc db.folders k (db.folders.length + 1) fid x hk1
      (by omega) hk
  -- the descendant property is closed under the child relation used by
  -- the store cascade
  have hchild : ∀ f ∈ db.folders, ∀ p, f.parent_folder_id = some p →
      (∃ k, ancK db.folders k p = some fid) →
      ∃ k, ancK db.folders k f.folder_id = some fid := by
    intro f hf p hp ⟨k, hk⟩
    refine ⟨1 + k, ?_⟩
    rw [ancK_add, ancK_succ, parentStep_of_mem hnd hf, hp]
    simpa [ancK] using hk
  unfold deleteFolder
  rw [hfound]
  dsimp only
  simp only [Bool.false_eq_true, if_false]
  rw [deleteDirectFiles_folders]
  refine ⟨by trivial, ?_⟩
  by_cases hSe : (collectSubfolderIds db.folders (db.folders.length + 1)
      fid).isEmpty = true
  · -- no proper descendants at all
    rw [if_pos hSe]
    have hnodesc : ∀ x k, 1 ≤ k → ancK db.folders k x ≠ some fid := by
      intro x k hk1 hk
      have := hcollect x k hk1 hk
      rw [List.isEmpty_iff] at hSe
      rw [hSe] at this
      simp at this
    have hremF : ∀ g ∈ db.folders,
        (∃ k, ancK db.folders k g.folder_id = some fid) →
        g ∉ (deleteFolderRowsCascade db.folders
          (deleteDirectFiles u (db.files.filter
            (fun fl => fl.folder_id == some fid)) db
            [Ev.evBegin, Ev.evSelect, Ev.evSelect]).1.files [fid]).1 := by
      intro g hg ⟨k, hk⟩ hmem
      rcases cascade_folders_mem _ _ _ _ hmem with ⟨_, hnd2⟩
      cases k with
      | zero =>
        have hgf : g.folder_id = fid := by simpa [ancK] using hk
        exact hnd2 (by rw [hgf]; exact cascade_seed_sub _ _ _ fid (by simp))
      | succ k => exact hnodesc g.folder_id (k + 1) (by omega) hk
    have hremFl : ∀ fl,
        (∃ q k, fl.folder_id = some q ∧ ancK db.folders k q = some fid) →
        fl ∉ (deleteFolderRowsCascade db.folders
          (deleteDirectFiles u (db.files.filter
            (fun fl => fl.folder_id == some fid)) db
            [Ev.evBegin, Ev.evSelect, Ev.evSelect]).1.files [fid]).2 := by
      intro fl ⟨q, k, hq, hk⟩ hmem
      rcases cascade_files_mem _ _ _ _ hmem with ⟨_, hnd2⟩
      cases k with
      | zero =>
        have hqf : q = fid := by simpa [ancK] using hk
        exact hnd2 q hq (by rw [hqf]; exact cascade_seed_sub _ _ _ fid (by simp))
      | succ k => exact hnodesc q (k + 1) (by omega) hk
    refine ⟨fun g hg hd => hremF g hg hd, fun fl _ hd => hremFl fl hd, ?_, ?_⟩
    · intro g hmem
      have hgfs : g ∈ db.folders := (cascade_folders_mem _ _ _ _ hmem).1
      constructor
      · intro hd; exact hremF g hgfs hd hmem
      · intro p hp hd
        exact hremF g hgfs (hchild g hgfs p hp hd) hmem
    · intro fl hmem q hq hd
      rcases hd with ⟨k, hk⟩
      exact hremFl fl ⟨q, k, hq, hk⟩ hmem
  · rw [if_neg hSe]
    have hremF : ∀ g ∈ db.folders,
        (∃ k, ancK db.folders k g.folder_id = some fid) →
        g ∉ (deleteFolderRowsCascade
          (deleteFolderRowsCascade db.folders
            (deleteDirectFiles u (db.files.filter
              (fun fl => fl.folder_id == some fid)) db
              [Ev.evBegin, Ev.evSelect, Ev.evSelect]).1.files
            (collectSubfolderIds db.folders (db.folders.length + 1) fid)).1
          (deleteFolderRowsCascade db.folders
            (deleteDirectFiles u (db.files.filter
              (fun fl => fl.folder_id == some fid)) db
              [Ev.evBegin, Ev.evSelect, Ev.evSelect]).1.files
            (collectSubfolderIds db.folders (db.folders.length + 1) fid)).2
          [fid]).1 := by
      intro g hg ⟨k, hk⟩ hmem
      rcases cascade_folders_mem _ _ _ _ hmem with ⟨hmem1, hnd2⟩
      cases k with
      | zero =>
        have hgf : g.folder_id = fid := by simpa [ancK] using hk
        exact hnd2 (by rw [hgf]; exact cascade_seed_sub _ _ _ fid (by simp))
      | succ k =>
        have hin := hcollect g.folder_id (k + 1) (by omega) hk
        rcases cascade_folders_mem _ _ _ _ hmem1 with ⟨_, hnd1⟩
        exact hnd1 (cascade_seed_sub _ _ _ _ hin)
    have hremFl : ∀ fl,
        (∃ q k, fl.folder_id = some q ∧ ancK db.folders k q = some fid) →
        fl ∉ (deleteFolderRowsCascade
          (deleteFolderRowsCascade db.folders
            (deleteDirectFiles u (db.files.filter
              (fun fl => fl.folder_id == some fid)) db
              [Ev.evBegin, Ev.evSelect, Ev.evSelect]).1.files
            (collectSubfolderIds db.folders (db.folders.length + 1) fid)).1
          (deleteFolderRowsCascade db.folders
            (deleteDirectFiles u (db.files.filter
              (fun fl => fl.folder_id == some fid)) db
              [Ev.evBegin, Ev.evSelect, Ev.evSelect]).1.files
            (collectSubfolderIds db.folders (db.folders.length + 1) fid)).2
          [fid]).2 := by
      intro fl ⟨q, k, hq, hk⟩ hmem
      rcases cascade_files_mem _ _ _ _ hmem with ⟨hmem1, hnd2⟩
      cases k with
      | zero =>
        have hqf : q = fid := by simpa [ancK] using hk
        exact hnd2 q hq (by rw [hqf]; exact cascade_seed_sub _ _ _ fid (by simp))
      | succ k =>
        have hin := hcollect q (k + 1) (by omega) hk
        rcases cascade_files_mem _ _ _ _ hmem1 with ⟨_, hnd1⟩
        exact hnd1 q hq (cascade_seed_sub _ _ _ _ hin)
    have hsubF : ∀ g ∈ (deleteFolderRowsCascade
          (deleteFolderRowsCascade db.folders
            (deleteDirectFiles u (db.files.filter
              (fun fl => fl.folder_id == some fid)) db
              [Ev.evBegin, Ev.evSelect, Ev.evSelect]).1.files
            (collectSubfolderIds db.folders (db.folders.length + 1) fid)).1
          (deleteFolderRowsCascade db.folders
            (deleteDirectFiles u (db.files.filter
              (fun fl => fl.folder_id == some fid)) db
              [Ev.evBegin, Ev.evSelect, Ev.evSelect]).1.files
            (collectSubfolderIds db.folders (db.folders.length + 1) fid)).2
          [fid]).1, g ∈ db.folders := by
      intro g hmem
      exact (cascade_folders_mem _ _ _ _
        (cascade_folders_mem _ _ _ _ hmem).1).1
    refine ⟨fun g hg hd => hremF g hg hd, fun fl _ hd => hremFl fl hd, ?_, ?_⟩
    · intro g hmem
      have hgfs := hsubF g hmem
      constructor
      · intro hd; exact hremF g hgfs hd hmem
      · intro p hp hd
        exact hremF g hgfs (hchild g hgfs p hp hd) hmem
    · intro fl hmem q hq hd
      rcases hd with ⟨k, hk⟩
      exact hremFl fl ⟨q, k, hq, hk⟩ hmem

theorem WF_of_WFB (fs : List Folder) (h : WFB fs = true) : WF fs := by
  unfold WFB at h
  rw [Bool.and_eq_true] at h
  have hnd : (ids fs).Nodup := of_decide_eq_true h.1
  have hall := List.all_eq_true.mp h.2
  refine ⟨hnd, ?_, ?_, ?_⟩
  · intro f hf p hp
    have := hall f hf
    rw [Bool.and_eq_true, Bool.and_eq_true] at this
    have h1 := this.1.1
    rw [hp] at h1
    exact List.mem_of_elem_eq_true h1
  · intro f hf
    have := hall f hf
    rw [Bool.and_eq_true, Bool.and_eq_true] at this
    have h2 := this.1.2
    simpa using h2
  · intro f hf p hp g hg hgid
    have := hall f hf
    rw [Bool.and_eq_true, Bool.and_eq_true] at this
    have h3 := this.2
    rw [hp] at h3
    have := List.all_eq_true.mp h3 g hg
    rw [Bool.or_eq_true] at this
    rcases this with hne | heq
    · exfalso
      rw [hgid] at hne
      simp at hne
    · simpa using heq

/-- C1 witness: the theorem applied to a concrete two-folder store with a
file in each; the descendant folder row is gone after the delete. -/
theorem C1_deleteFolder_witness :
    (⟨2, 7, some 1, "Sub"⟩ : Folder) ∉
      (deleteFolder
        { folders := [⟨1, 7, none, "Docs"⟩, ⟨2, 7, some 1, "Sub"⟩],
          files := [⟨10, 7, some 1, "a.txt", "/user_7/aaa/bbb/x.txt",
            "text/plain", 10⟩,
            ⟨11, 7, some 2, "b.txt", "/user_7/ccc/ddd/y.txt",
            "text/plain", 5⟩],
          blobs := [⟨"/user_7/aaa/bbb/x.txt", 0⟩,
            ⟨"/user_7/ccc/ddd/y.txt", 0⟩],
          cache := [] }
        7 1 false).2.1.folders :=
  (C1_deleteFolder_removes_subtree
    { folders := [⟨1, 7, none, "Docs"⟩, ⟨2, 7, some 1, "Sub"⟩],
      files := [⟨10, 7, some 1, "a.txt", "/user_7/aaa/bbb/x.txt",
        "text/plain", 10⟩,
        ⟨11, 7, some 2, "b.txt", "/user_7/ccc/ddd/y.txt",
        "text/plain", 5⟩],
      blobs := [⟨"/user_7/aaa/bbb/x.txt", 0⟩,
        ⟨"/user_7/ccc/ddd/y.txt", 0⟩],
      cache := [] }
    7 1 ⟨1, 7, none, "Docs"⟩
    (WF_of_WFB _ (by decide))
    (acyclic_of_rootedB _ (by decide))
    rfl).2.1
    ⟨2, 7, some 1, "Sub"⟩ (by simp) ⟨1, by decide⟩

/-! ### Transfer lemmas for the folder-table transformations of the
controllers: renaming and reparenting (`UPDATE` = map), insertion
(`INSERT` = append of a fresh row), and deletion (`DELETE` = filter). -/

theorem ancK_one (fs : List Folder) (y : Nat) :
    ancK fs 1 y = parentStep fs y := by
  rw [ancK_succ]; cases parentStep fs y <;> rfl

theorem rowOf_map_fid (fs : List Folder) (g : Folder → Folder)
    (hid : ∀ f, (g f).folder_id = f.folder_id) (y : Nat) :
    rowOf (fs.map g) y = (rowOf fs y).map g := by
  unfold rowOf
  have hpred : ((fun f : Folder => f.folder_id == y) ∘ g) =
      (fun f : Folder => f.folder_id == y) := by
    funext f
    simp [Function.comp, hid]
  rw [List.find?_map, hpred]

theorem ids_map_fid (fs : List Folder) (g : Folder → Folder)
    (hid : ∀ f, (g f).folder_id = f.folder_id) : ids (fs.map g) = ids fs := by
  unfold ids
  rw [List.map_map]
  exact List.map_congr_left (fun f _ => hid f)

theorem parentStep_map_congr (fs : List Folder) (g : Folder → Folder)
    (hid : ∀ f, (g f).folder_id = f.folder_id) (y : Nat)
    (hpar : ∀ f, rowOf fs y = some f →
      (g f).parent_folder_id = f.parent_folder_id) :
    parentStep (fs.map g) y = parentStep fs y := by
  unfold parentStep
  rw [rowOf_map_fid fs g hid]
  cases h : rowOf fs y with
  | none => rfl
  | some f => simp [hpar f h]

theorem ancK_congr_all (fs fs' : List Folder)
    (h : ∀ y, parentStep fs' y = parentStep fs y) (k x : Nat) :
    ancK fs' k x = ancK fs k x := by
  induction k generalizing x with
  | zero => rfl
  | succ k ih =>
    rw [ancK_succ, ancK_succ, h x]
    cases parentStep fs x with
    | none => rfl
    | some p => exact ih p

theorem acyclic_congr (fs fs' : List Folder)
    (h : ∀ y, parentStep fs' y = parentStep fs y) (hac : Acyclic fs) :
    Acyclic fs' := by
  intro x k hcon
  rw [ancK_congr_all fs fs' h] at hcon
  exact hac x k hcon

/-- Conditional chain transfer: two tables whose parent step agrees on
every node actually visited by a chain compute the same chain. -/
theorem ancK_agree (fs fs' : List Folder) (k x : Nat)
    (h : ∀ j z, j < k → ancK fs' j x = some z →
      parentStep fs' z = parentStep fs z) :
    ancK fs' k x = ancK fs k x := by
  induction k generalizing x with
  | zero => rfl
  | succ k ih =>
    have h0 : parentStep fs' x = parentStep fs x := h 0 x (by omega) rfl
    rw [ancK_succ, ancK_succ, h0]
    cases hp : parentStep fs x with
    | none => rfl
    | some p =>
      apply ih
      intro j z hj hz
      apply h (j + 1) z (by omega)
      rw [ancK_succ, h0, hp]
      exact hz

/-- If no node steps into `n`, no chain of positive length ends at `n`. -/
theorem ancK_ne_of_no_step (fs : List Folder) (n : Nat)
    (h : ∀ y, parentStep fs y ≠ some n) {j x : Nat} (hj : 1 ≤ j) :
    ancK fs j x ≠ some n := by
  intro hcon
  have hj' : j = (j - 1) + 1 := by omega
  rw [hj', ancK_add] at hcon
  cases hy : ancK fs (j - 1) x with
  | none => rw [hy] at hcon; exact absurd hcon (by simp)
  | some y =>
    rw [hy, Option.some_bind, ancK_one] at hcon
    exact h y hcon

/-- Rotating a cycle: a cycle through `x` that visits `m` is a cycle
through `m` of the same length. -/
theorem cycle_shift (fs : List Folder) {x m j k : Nat}
    (hhit : ancK fs j x = some m) (hcyc : ancK fs (k + 1) x = some x) :
    ancK fs (k + 1) m = some m := by
  have h1 : ancK fs ((k + 1) + j) x = some m := by
    rw [ancK_add, hcyc, Option.some_bind, hhit]
  have h2 : ancK fs (j + (k + 1)) x = (ancK fs j x).bind (ancK fs (k + 1)) :=
    ancK_add fs j (k + 1) x
  rw [hhit, Option.some_bind] at h2
  rw [Nat.add_comm] at h1
  exact h2.symm.trans h1

/-- A node with a live chain of positive length has a row. -/
theorem mem_ids_of_ancK_pos (fs : List Folder) {i x y : Nat} (hi : 1 ≤ i)
    (h : ancK fs i x = some y) : x ∈ ids fs := by
  have hi' : i = (i - 1) + 1 := by omega
  rw [hi', ancK_succ] at h
  revert h
  cases hp : parentStep fs x with
  | none => intro h; exact absurd h (by simp)
  | some p =>
    intro h
    unfold parentStep at hp
    cases hf : rowOf fs x with
    | none => rw [hf] at hp; exact absurd hp (by simp)
    | some f =>
      rcases rowOf_mem hf with ⟨hfm, hfid⟩
      exact hfid ▸ List.mem_map_of_mem Folder.folder_id hfm

theorem parentStep_reparent_ne (fs : List Folder) (m : Nat) (np : Option Nat)
    (y : Nat) (hy : y ≠ m) :
    parentStep (fs.map (fun f =>
      if f.folder_id == m then { f with parent_folder_id := np } else f)) y =
    parentStep fs y := by
  apply parentStep_map_congr
  · intro f
    split <;> rfl
  · intro f hf
    rcases rowOf_mem hf with ⟨_, hfid⟩
    have hne : (f.folder_id == m) = false := by
      simp [hfid, hy]
    simp [hne]

theorem parentStep_reparent_self (fs : List Folder) (m : Nat) (np : Option Nat)
    (f : Folder) (hf : rowOf fs m = some f) :
    parentStep (fs.map (fun f =>
      if f.folder_id == m then { f with parent_folder_id := np } else f)) m =
    np := by
  unfold parentStep
  rw [rowOf_map_fid fs _ (by intro f; split <;> rfl), hf]
  rcases rowOf_mem hf with ⟨_, hfid⟩
  simp [hfid]

theorem rowOf_append_one (fs : List Folder) (row : Folder) (y : Nat) :
    rowOf (fs ++ [row]) y =
      match rowOf fs y with
      | some f => some f
      | none => if row.folder_id == y then some row else none := by
  unfold rowOf
  rw [List.find?_append]
  cases fs.find? (fun f => f.folder_id == y) with
  | some f => rfl
  | none =>
    simp only [Option.none_orElse]
    cases h : (row.folder_id == y) <;> simp [List.find?, h]

theorem parentStep_append_ne (fs : List Folder) (row : Folder) (y : Nat)
    (hy : (row.folder_id == y) = false) :
    parentStep (fs ++ [row]) y = parentStep fs y := by
  unfold parentStep
  rw [rowOf_append_one]
  cases rowOf fs y with
  | some f => rfl
  | none => simp [hy]

theorem parentStep_filter_imp (fs : List Folder) (pred : Folder → Bool)
    (hnd : (ids fs).Nodup) (y q : Nat)
    (h : parentStep (fs.filter pred) y = some q) : parentStep fs y = some q := by
  unfold parentStep at h ⊢
  revert h
  cases hg : rowOf (fs.filter pred) y with
  | none => intro h; exact absurd h (by simp)
  | some g =>
    intro h
    rcases rowOf_mem hg with ⟨hgm, hgid⟩
    have hgfs : g ∈ fs := List.mem_of_mem_filter hgm
    rw [← hgid, rowOf_eq_of_mem hnd hgfs]
    exact h

theorem ancK_filter_imp (fs : List Folder) (pred : Folder → Bool)
    (hnd : (ids fs).Nodup) (k : Nat) :
    ∀ x y, ancK (fs.filter pred) k x = some y → ancK fs k x = some y := by
  induction k with
  | zero => intro x y h; exact h
  | succ k ih =>
    intro x y h
    rw [ancK_succ] at h ⊢
    revert h
    cases hp : parentStep (fs.filter pred) x with
    | none => intro h; exact absurd h (by simp)
    | some p =>
      intro h
      rw [parentStep_filter_imp fs pred hnd x p hp]
      exact ih p y h

theorem nextFolderId_le (fs : List Folder) :
    ∀ (a : Nat), (∀ f ∈ fs, f.folder_id ≤ fs.foldl (fun m f => max m f.folder_id) a)
      ∧ a ≤ fs.foldl (fun m f => max m f.folder_id) a := by
  induction fs with
  | nil => intro a; exact ⟨by simp, Nat.le_refl a⟩
  | cons f rest ih =>
    intro a
    constructor
    · intro g hg
      rcases List.mem_cons.mp hg with rfl | hg2
      · calc g.folder_id ≤ max a g.folder_id := Nat.le_max_right _ _
          _ ≤ _ := (ih (max a g.folder_id)).2
      · exact (ih (max a f.folder_id)).1 g hg2
    · calc a ≤ max a f.folder_id := Nat.le_max_left _ _
        _ ≤ _ := (ih (max a f.folder_id)).2

theorem nextFolderId_fresh (fs : List Folder) : nextFolderId fs ∉ ids fs := by
  intro hmem
  rcases List.mem_map.mp hmem with ⟨f, hf, hfid⟩
  have := (nextFolderId_le fs 0).1 f hf
  unfold nextFolderId at hfid
  omega

/-! ### Preservation of well-formedness under the table transformations. -/

theorem WF_map_fid (fs : List Folder) (g : Folder → Folder)
    (hid : ∀ f, (g f).folder_id = f.folder_id)
    (huser : ∀ f, (g f).user_id = f.user_id)
    (hw : WF fs)
    (hpar : ∀ f ∈ fs, ∀ p, (g f).parent_folder_id = some p →
      p ∈ ids fs ∧ ∀ h ∈ fs, h.folder_id = p → h.user_id = f.user_id) :
    WF (fs.map g) := by
  constructor
  · rw [ids_map_fid fs g hid]
    exact hw.nodup
  · intro f' hf' p hp
    rcases List.mem_map.mp hf' with ⟨f, hf, rfl⟩
    rw [ids_map_fid fs g hid]
    exact (hpar f hf p hp).1
  · intro f' hf'
    rcases List.mem_map.mp hf' with ⟨f, hf, rfl⟩
    rw [hid]
    exact hw.pos f hf
  · intro f' hf' p hp g' hg' hgid
    rcases List.mem_map.mp hf' with ⟨f, hf, rfl⟩
    rcases List.mem_map.mp hg' with ⟨h, hh, rfl⟩
    rw [huser h, huser f]
    exact (hpar f hf p hp).2 h hh (by rw [← hid h]; exact hgid)

theorem WF_append_fresh (fs : List Folder) (row : Folder)
    (hw : WF fs)
    (hfresh : row.folder_id ∉ ids fs)
    (hpos : 0 < row.folder_id)
    (hrow : ∀ q, row.parent_folder_id = some q → q ∈ ids fs ∧
      ∀ g ∈ fs, g.folder_id = q → g.user_id = row.user_id) :
    WF (fs ++ [row]) := by
  have hids : ids (fs ++ [row]) = ids fs ++ [row.folder_id] := by
    unfold ids; rw [List.map_append]; rfl
  constructor
  · rw [hids]
    refine List.Nodup.append hw.nodup (List.nodup_singleton _) ?_
    intro a ha hb
    rw [List.mem_singleton] at hb
    subst hb
    exact hfresh ha
  · intro f hf p hp
    rw [hids]
    rcases List.mem_append.mp hf with hf1 | hf2
    · exact List.mem_append_left _ (hw.closed f hf1 p hp)
    · rw [List.mem_singleton] at hf2
      subst hf2
      exact List.mem_append_left _ ((hrow p hp).1)
  · intro f hf
    rcases List.mem_append.mp hf with hf1 | hf2
    · exact hw.pos f hf1
    · rw [List.mem_singleton] at hf2
      subst hf2
      exact hpos
  · intro f hf p hp g hg hgid
    rcases List.mem_append.mp hf with hf1 | hf2
    · rcases List.mem_append.mp hg with hg1 | hg2
      · exact hw.sameOwner f hf1 p hp g hg1 hgid
      · -- g is the fresh row, but its id p is an existing folder id
        rw [List.mem_singleton] at hg2
        subst hg2
        have : p ∈ ids fs := hw.closed f hf1 p hp
        rw [← hgid] at this
        exact absurd this hfresh
    · rw [List.mem_singleton] at hf2
      subst hf2
      rcases List.mem_append.mp hg with hg1 | hg2
      · exact (hrow p hp).2 g hg1 hgid
      · rw [List.mem_singleton] at hg2
        subst hg2
        rfl

theorem WF_filter (fs : List Folder) (pred : Folder → Bool)
    (hw : WF fs)
    (hclosed : ∀ f ∈ fs, pred f = true → ∀ p, f.parent_folder_id = some p →
      ∀ g ∈ fs, g.folder_id = p → pred g = true) :
    WF (fs.filter pred) := by
  have hsub : ∀ f ∈ fs.filter pred, f ∈ fs := fun f hf => List.mem_of_mem_filter hf
  constructor
  · exact List.Nodup.sublist (List.Sublist.map _ (List.filter_sublist fs)) hw.nodup
  · intro f hf p hp
    have hffs : f ∈ fs := hsub f hf
    have hpf : pred f = true := List.of_mem_filter hf
    have hpm : p ∈ ids fs := hw.closed f hffs p hp
    rcases List.mem_map.mp hpm with ⟨g, hg, hgid⟩
    have hpg : pred g = true := hclosed f hffs hpf p hp g hg hgid
    exact hgid ▸ List.mem_map_of_mem Folder.folder_id
      (List.mem_filter.mpr ⟨hg, hpg⟩)
  · intro f hf
    exact hw.pos f (hsub f hf)
  · intro f hf p hp g hg hgid
    exact hw.sameOwner f (hsub f hf) p hp g (hsub g hg) hgid

theorem acyclic_filter (fs : List Folder) (pred : Folder → Bool)
    (hnd : (ids fs).Nodup) (hac : Acyclic fs) : Acyclic (fs.filter pred) := by
  intro x k hcon
  exact hac x k (ancK_filter_imp fs pred hnd (k + 1) x x hcon)

theorem GoodTable_filter (fs : List Folder) (pred : Folder → Bool)
    (hg : GoodTable fs)
    (hclosed : ∀ f ∈ fs, pred f = true → ∀ p, f.parent_folder_id = some p →
      ∀ g ∈ fs, g.folder_id = p → pred g = true) :
    GoodTable (fs.filter pred) :=
  ⟨WF_filter fs pred hg.1 hclosed, acyclic_filter fs pred hg.1.nodup hg.2⟩

theorem no_step_into_fresh (fs : List Folder) (row : Folder)
    (hcl : ∀ f ∈ fs, ∀ p, f.parent_folder_id = some p → p ∈ ids fs)
    (hfresh : row.folder_id ∉ ids fs)
    (hrow : ∀ q, row.parent_folder_id = some q → q ∈ ids fs) :
    ∀ y, parentStep (fs ++ [row]) y ≠ some row.folder_id := by
  intro y hcon
  unfold parentStep at hcon
  rw [rowOf_append_one] at hcon
  revert hcon
  cases hy : rowOf fs y with
  | some f =>
    intro hcon
    simp only [Option.some_bind] at hcon
    rcases rowOf_mem hy with ⟨hfm, _⟩
    exact hfresh (hcl f hfm _ hcon)
  | none =>
    cases hr : (row.folder_id == y) with
    | true =>
      intro hcon
      simp only [if_pos rfl, Option.some_bind] at hcon
      exact hfresh (hrow _ hcon)
    | false =>
      intro hcon
      simp at hcon

theorem acyclic_append_fresh (fs : List Folder) (row : Folder)
    (hcl : ∀ f ∈ fs, ∀ p, f.parent_folder_id = some p → p ∈ ids fs)
    (hac : Acyclic fs)
    (hfresh : row.folder_id ∉ ids fs)
    (hrow : ∀ q, row.parent_folder_id = some q → q ∈ ids fs) :
    Acyclic (fs ++ [row]) := by
  intro x k hcon
  have hnostep := no_step_into_fresh fs row hcl hfresh hrow
  by_cases hx : x = row.folder_id
  · subst hx
    exact ancK_ne_of_no_step _ _ hnostep (by omega) hcon
  · have havoid : ∀ j z, j < k + 1 → ancK (fs ++ [row]) j x = some z →
        parentStep (fs ++ [row]) z = parentStep fs z := by
      intro j z hj hz
      have hzn : z ≠ row.folder_id := by
        intro hzn
        subst hzn
        rcases Nat.eq_zero_or_pos j with rfl | hjpos
        · rw [ancK_zero] at hz
          exact hx (Option.some.inj hz)
        · exact ancK_ne_of_no_step _ _ hnostep hjpos hz
      exact parentStep_append_ne fs row z (by simpa using (Ne.symm hzn))
    rw [ancK_agree fs (fs ++ [row]) (k + 1) x havoid] at hcon
    exact hac x k hcon

/-- Reparenting `m` to a destination none of whose ancestor chains reaches
`m` (in particular, to the root) keeps the table acyclic. -/
theorem acyclic_reparent (fs : List Folder) (m : Nat) (np : Option Nat)
    (hac : Acyclic fs) (hnd : (ids fs).Nodup)
    (hnp : ∀ q, np = some q → ∀ i, ancK fs i q ≠ some m) :
    Acyclic (fs.map (fun f =>
      if f.folder_id == m then { f with parent_folder_id := np } else f)) := by
  intro x k hcon
  by_cases hvisit : ∃ j, j ≤ k ∧ ancK (fs.map (fun f =>
      if f.folder_id == m then { f with parent_folder_id := np } else f)) j x = some m
  · rcases hvisit with ⟨j, hj, hhit⟩
    have hcycm := cycle_shift _ hhit hcon
    have hmem : m ∈ ids fs := by
      have := mem_ids_of_ancK_pos _ (by omega) hcycm
      rwa [ids_map_fid _ _ (by intro f; split <;> rfl)] at this
    rcases rowOf_of_mem_ids hmem with ⟨f, hf⟩
    have hstep := parentStep_reparent_self fs m np f hf
    rw [ancK_succ, hstep] at hcycm
    revert hcycm
    cases np with
    | none => intro hcycm; exact absurd hcycm (by simp)
    | some q =>
      intro hcycm
      have hex : ∃ i, ancK (fs.map (fun f =>
          if f.folder_id == m then { f with parent_folder_id := some q } else f)) i q =
          some m := ⟨k, hcycm⟩
      have hi0 := Nat.find_spec hex
      have havoid : ∀ j z, j < Nat.find hex → ancK (fs.map (fun f =>
          if f.folder_id == m then { f with parent_folder_id := some q } else f)) j q =
          some z →
          parentStep (fs.map (fun f =>
            if f.folder_id == m then { f with parent_folder_id := some q } else f)) z =
          parentStep fs z := by
        intro j z hj2 hz
        have hzm : z ≠ m := by
          intro hzm
          subst hzm
          exact Nat.find_min hex hj2 hz
        exact parentStep_reparent_ne fs m (some q) z hzm
      rw [ancK_agree fs _ (Nat.find hex) q havoid] at hi0
      exact hnp q rfl (Nat.find hex) hi0
  · have havoid : ∀ j z, j < k + 1 → ancK (fs.map (fun f =>
        if f.folder_id == m then { f with parent_folder_id := np } else f)) j x =
        some z →
        parentStep (fs.map (fun f =>
          if f.folder_id == m then { f with parent_folder_id := np } else f)) z =
        parentStep fs z := by
      intro j z hj hz
      have hzm : z ≠ m := by
        intro hzm
        subst hzm
        exact hvisit ⟨j, by omega, hz⟩
      exact parentStep_reparent_ne fs m np z hzm
    rw [ancK_agree fs _ (k + 1) x havoid] at hcon
    exact hac x k hcon

theorem isDescendant_mono (fs : List Folder) :
    ∀ {fuel fuel' c t : Nat}, fuel ≤ fuel' → isDescendant fs fuel c t = true →
      isDescendant fs fuel' c t = true := by
  intro fuel
  induction fuel with
  | zero => intro fuel' c t _ h; exact absurd h (by simp [isDescendant])
  | succ fuel ih =>
    intro fuel' c t hle h
    have hfuel' : fuel' = (fuel' - 1) + 1 := by omega
    rw [hfuel']
    rw [isDescendant] at h ⊢
    rcases Bool.or_eq_true_iff.mp h with hct | hany
    · exact Bool.or_eq_true_iff.mpr (Or.inl hct)
    · rcases List.any_eq_true.mp hany with ⟨f, hfmem, hrec⟩
      refine Bool.or_eq_true_iff.mpr (Or.inr (List.any_eq_true.mpr ⟨f, hfmem, ?_⟩))
      exact ih (by omega) hrec

/-- The downward recursion of the source (`isDescendant`) finds every
target reachable from `c` by an upward ancestor chain. -/
theorem isDescendant_of_anc (fs : List Folder) :
    ∀ (k t c : Nat), ancK fs k t = some c → ∀ fuel, k + 1 ≤ fuel →
      isDescendant fs fuel c t = true := by
  intro k
  induction k with
  | zero =>
    intro t c h fuel hfuel
    rw [ancK_zero] at h
    have : t = c := Option.some.inj h
    subst this
    have hfuel' : fuel = (fuel - 1) + 1 := by omega
    rw [hfuel', isDescendant]
    simp
  | succ k ih =>
    intro t c h fuel hfuel
    have hdec := ancK_add fs k 1 t
    rw [h] at hdec
    revert hdec
    cases hy : ancK fs k t with
    | none => intro hdec; exact absurd hdec.symm (by simp)
    | some y =>
      intro hdec
      rw [Option.some_bind, ancK_one] at hdec
      have hstep : parentStep fs y = some c := hdec.symm
      unfold parentStep at hstep
      revert hstep
      cases hg : rowOf fs y with
      | none => intro hstep; exact absurd hstep (by simp)
      | some g =>
        intro hstep
        simp only [Option.some_bind] at hstep
        rcases rowOf_mem hg with ⟨hgm, hgid⟩
        have hfuel' : fuel = (fuel - 1) + 1 := by omega
        rw [hfuel', isDescendant]
        refine Bool.or_eq_true_iff.mpr (Or.inr (List.any_eq_true.mpr ⟨g, ?_, ?_⟩))
        · exact List.mem_filter.mpr ⟨hgm, by simp [hstep]⟩
        · rw [hgid]
          exact ih t y hy (fuel - 1) (by omega)

theorem renameFolder_good (db : DB) (u fid : Nat) (nm : String)
    (hg : GoodTable db.folders) :
    GoodTable (renameFolder db u fid nm).2.1.folders := by
  unfold renameFolder
  cases hfind : db.folders.find? (fun f => f.folder_id == fid && f.user_id == u) with
  | none => exact hg
  | some folder =>
    dsimp only
    by_cases hex : (!(db.folders.filter (fun f =>
        f.user_id == u && f.name == nm && f.folder_id != fid &&
        (if truthy folder.parent_folder_id then
          f.parent_folder_id == folder.parent_folder_id
         else f.parent_folder_id == none))).isEmpty) = true
    · rw [if_pos hex]
      exact hg
    · rw [if_neg hex]
      constructor
      · apply WF_map_fid
        · intro f; split <;> rfl
        · intro f; split <;> rfl
        · exact hg.1
        · intro f hf p hp
          have hp2 : f.parent_folder_id = some p := by
            revert hp; split <;> (intro hp; exact hp)
          exact ⟨hg.1.closed f hf p hp2,
            fun h hh hhid => hg.1.sameOwner f hf p hp2 h hh hhid⟩
      · apply acyclic_congr db.folders _ _ hg.2
        intro y
        apply parentStep_map_congr
        · intro f; split <;> rfl
        · intro f _; split <;> rfl

theorem moveFolderFinish_good (db : DB) (u fid : Nat) (np : Option Nat)
    (folder : Folder) (pre : List Ev)
    (hg : GoodTable db.folders)
    (hfolder : folder ∈ db.folders) (hfid : folder.folder_id = fid)
    (hnp : ∀ q, np = some q → q ∈ ids db.folders →
      (∀ i, ancK db.folders i q ≠ some fid) ∧
      (∀ h ∈ db.folders, h.folder_id = q → h.user_id = folder.user_id)) :
    GoodTable (moveFolderFinish db u fid np folder pre).2.1.folders := by
  unfold moveFolderFinish
  cases np with
  | none =>
    dsimp only
    rw [if_neg (by simp)]
    constructor
    · apply WF_map_fid
      · intro f; split <;> rfl
      · intro f; split <;> rfl
      · exact hg.1
      · intro f hf p hp
        revert hp
        by_cases hcase : (f.folder_id == fid) = true
        · intro hp
          rw [if_pos hcase] at hp
          exact absurd hp (by simp)
        · intro hp
          rw [if_neg hcase] at hp
          exact ⟨hg.1.closed f hf p hp,
            fun h hh hhid => hg.1.sameOwner f hf p hp h hh hhid⟩
    · apply acyclic_reparent db.folders fid none hg.2 hg.1.nodup
      intro q hq i
      exact absurd hq (by simp)
  | some q =>
    dsimp only
    cases hfk : (ids db.folders).contains q with
    | false =>
      rw [if_pos (by exact rfl)]
      exact hg
    | true =>
      rw [if_neg (by simp)]
      have hqmem : q ∈ ids db.folders := List.mem_of_elem_eq_true hfk
      rcases hnp q rfl hqmem with ⟨hchain, howner⟩
      constructor
      · apply WF_map_fid
        · intro f; split <;> rfl
        · intro f; split <;> rfl
        · exact hg.1
        · intro f hf p hp
          revert hp
          by_cases hcase : (f.folder_id == fid) = true
          · intro hp
            rw [if_pos hcase] at hp
            have hqp : q = p := Option.some.inj hp
            subst hqp
            refine ⟨hqmem, ?_⟩
            intro h hh hhid
            have hfeq : f = folder := by
              apply List.inj_on_of_nodup_map hg.1.nodup hf hfolder
              rw [hfid]
              exact eq_of_beq hcase
            rw [hfeq]
            exact howner h hh hhid
          · intro hp
            rw [if_neg hcase] at hp
            exact ⟨hg.1.closed f hf p hp,
              fun h hh hhid => hg.1.sameOwner f hf p hp h hh hhid⟩
      · apply acyclic_reparent db.folders fid (some q) hg.2 hg.1.nodup
        intro q2 hq2 i
        have hq2q : q2 = q := (Option.some.inj hq2).symm
        subst hq2q
        exact hchain i

theorem moveFolder_good (db : DB) (u fid : Nat) (np : Option Nat)
    (hg : GoodTable db.folders) :
    GoodTable (moveFolder db u fid np).2.1.folders := by
  unfold moveFolder
  cases hfind : db.folders.find? (fun f => f.folder_id == fid && f.user_id == u) with
  | none => exact hg
  | some folder =>
    have hfmem : folder ∈ db.folders := List.mem_of_find?_eq_some hfind
    have hfpred := List.find?_some hfind
    have hffid : folder.folder_id = fid :=
      eq_of_beq ((Bool.and_eq_true _ _).mp hfpred).1
    have hfuser : folder.user_id = u :=
      eq_of_beq ((Bool.and_eq_true _ _).mp hfpred).2
    dsimp only
    by_cases hself : (some fid == np) = true
    · rw [if_pos hself]
      exact hg
    · rw [if_neg hself]
      cases np with
      | none =>
        rw [if_neg (by simp [truthy])]
        by_cases hname : (!(db.folders.filter (fun f =>
            f.user_id == u && f.name == folder.name &&
            f.parent_folder_id == none)).isEmpty) = true
        · rw [if_pos hname]
          exact hg
        · rw [if_neg hname]
          apply moveFolderFinish_good db u fid none folder _ hg hfmem hffid
          intro q hq _
          exact absurd hq (by simp)
      | some q =>
        by_cases hq0 : q = 0
        · subst hq0
          rw [if_neg (by simp [truthy])]
          by_cases hname : (!(db.folders.filter (fun f =>
              f.user_id == u && f.name == folder.name &&
              f.parent_folder_id == none)).isEmpty) = true
          · rw [if_pos hname]
            exact hg
          · rw [if_neg hname]
            apply moveFolderFinish_good db u fid (some 0) folder _ hg hfmem hffid
            intro q2 hq2 hq2mem
            have hq20 : q2 = 0 := (Option.some.inj hq2).symm
            subst hq20
            rcases List.mem_map.mp hq2mem with ⟨g, hgmem, hgid⟩
            have := hg.1.pos g hgmem
            omega
        · rw [if_pos (by simp [truthy, hq0])]
          dsimp only [Option.getD]
          by_cases hex : ((db.folders.filter (fun f =>
              f.folder_id == q && f.user_id == u)).isEmpty) = true
          · rw [if_pos hex]
            exact hg
          · rw [if_neg hex]
            by_cases hdesc : (isDescendant db.folders (db.folders.length + 1)
                fid q) = true
            · rw [if_pos hdesc]
              exact hg
            · rw [if_neg hdesc]
              by_cases hname : (!(db.folders.filter (fun f =>
                  f.user_id == u && f.name == folder.name &&
                  f.parent_folder_id == some q)).isEmpty) = true
              · rw [if_pos hname]
                exact hg
              · rw [if_neg hname]
                apply moveFolderFinish_good db u fid (some q) folder _ hg hfmem hffid
                intro q2 hq2 hq2mem
                have hq2q : q2 = q := (Option.some.inj hq2).symm
                subst hq2q
                constructor
                · intro i hchain
                  rcases Nat.eq_zero_or_pos i with rfl | hip
                  · rw [ancK_zero] at hchain
                    have hqfid : q2 = fid := Option.some.inj hchain
                    apply hdesc
                    rw [hqfid, isDescendant]
                    simp
                  · exact hdesc (isDescendant_of_anc db.folders i q2 fid hchain
                      (db.folders.length + 1)
                      (by
                        have hb := ancK_length_bound db.folders hg.1.closed hg.2
                          (mem_ids_of_ancK_pos db.folders hip hchain) hchain
                        omega))
                · intro h hh hhid
                  have hne : db.folders.filter (fun f =>
                      f.folder_id == q2 && f.user_id == u) ≠ [] := by
                    intro he
                    rw [he] at hex
                    exact hex rfl
                  rcases List.exists_mem_of_ne_nil _ hne with ⟨f0, hf0⟩
                  have hf0fs : f0 ∈ db.folders := List.mem_of_mem_filter hf0
                  have hf0pred := List.of_mem_filter hf0
                  have hf0id : f0.folder_id = q2 :=
                    eq_of_beq ((Bool.and_eq_true _ _).mp hf0pred).1
                  have hf0user : f0.user_id = u :=
                    eq_of_beq ((Bool.and_eq_true _ _).mp hf0pred).2
                  have hhf0 : h = f0 :=
                    List.inj_on_of_nodup_map hg.1.nodup hh hf0fs
                      (by rw [hhid, hf0id])
                  rw [hhf0, hf0user, hfuser]

theorem createFolder_good (db : DB) (u : Nat) (nm : String) (pid : Option Nat)
    (hg : GoodTable db.folders) :
    GoodTable (createFolder db u nm pid).2.1.folders := by
  unfold createFolder
  cases pid with
  | none =>
    dsimp only
    simp only [truthy]
    rw [if_neg (by simp)]
    by_cases hname : (!(db.folders.filter (fun f =>
        f.user_id == u && f.name == nm &&
        (if false = true then f.parent_folder_id == none
         else f.parent_folder_id == none))).isEmpty) = true
    · rw [if_pos hname]
      exact hg
    · rw [if_neg hname]
      rw [if_neg (by simp)]
      constructor
      · apply WF_append_fresh db.folders _ hg.1 (nextFolderId_fresh db.folders)
        · show 0 < nextFolderId db.folders
          unfold nextFolderId
          omega
        · intro q hq
          exact absurd hq (by simp)
      · apply acyclic_append_fresh db.folders _ hg.1.closed hg.2
          (nextFolderId_fresh db.folders)
        intro q hq
        exact absurd hq (by simp)
  | some q =>
    dsimp only
    simp only [truthy, Option.getD]
    by_cases hq0 : q = 0
    · subst hq0
      rw [if_neg (by simp)]
      by_cases hname : (!(db.folders.filter (fun f =>
          f.user_id == u && f.name == nm &&
          (if ((0 : Nat) != 0) = true then f.parent_folder_id == some 0
           else f.parent_folder_id == none))).isEmpty) = true
      · rw [if_pos hname]
        exact hg
      · rw [if_neg hname]
        have hc : (ids db.folders).contains 0 = false := by
          cases hcc : (ids db.folders).contains 0 with
          | false => rfl
          | true =>
            have hmem : (0 : Nat) ∈ ids db.folders :=
              List.mem_of_elem_eq_true hcc
            rcases List.mem_map.mp hmem with ⟨g, hgmem, hgid⟩
            have := hg.1.pos g hgmem
            omega
        rw [hc, if_pos (by exact rfl)]
        exact hg
    · have hqt : (q != 0) = true := by simp [hq0]
      simp only [hqt, Bool.true_and, eq_self_iff_true, if_true]
      by_cases hpe : ((db.folders.filter (fun f =>
          f.folder_id == q && f.user_id == u)).isEmpty) = true
      · rw [if_pos (by simp [hpe])]
        exact hg
      · rw [if_neg (by simp [hpe])]
        by_cases hname : (!(db.folders.filter (fun f =>
            f.user_id == u && f.name == nm &&
            f.parent_folder_id == some q)).isEmpty) = true
        · rw [if_pos hname]
          exact hg
        · rw [if_neg hname]
          cases hcc : (ids db.folders).contains q with
          | false =>
            rw [if_pos (by exact rfl)]
            exact hg
          | true =>
            rw [if_neg (by simp)]
            have hqmem : q ∈ ids db.folders := List.mem_of_elem_eq_true hcc
            have hne : db.folders.filter (fun f =>
                f.folder_id == q && f.user_id == u) ≠ [] := by
              intro he
              rw [he] at hpe
              exact hpe rfl
            rcases List.exists_mem_of_ne_nil _ hne with ⟨f0, hf0⟩
            have hf0fs : f0 ∈ db.folders := List.mem_of_mem_filter hf0
            have hf0pred := List.of_mem_filter hf0
            have hf0id : f0.folder_id = q :=
              eq_of_beq ((Bool.and_eq_true _ _).mp hf0pred).1
            have hf0user : f0.user_id = u :=
              eq_of_beq ((Bool.and_eq_true _ _).mp hf0pred).2
            have hrow : ∀ q2, some q = some q2 → q2 ∈ ids db.folders ∧
                ∀ g ∈ db.folders, g.folder_id = q2 → g.user_id = u := by
              intro q2 hq2
              have : q2 = q := (Option.some.inj hq2).symm
              subst this
              refine ⟨hqmem, ?_⟩
              intro g hgmem hgid
              have hgf0 : g = f0 :=
                List.inj_on_of_nodup_map hg.1.nodup hgmem hf0fs
                  (by rw [hgid, hf0id])
              rw [hgf0, hf0user]
            constructor
            · apply WF_append_fresh db.folders _ hg.1 (nextFolderId_fresh db.folders)
              · show 0 < nextFolderId db.folders
                unfold nextFolderId
                omega
              · intro q2 hq2
                exact (hrow q2 hq2).imp_right (fun h g hgmem hgid => h g hgmem hgid)
            · apply acyclic_append_fresh db.folders _ hg.1.closed hg.2
                (nextFolderId_fresh db.folders)
              intro q2 hq2
              exact (hrow q2 hq2).1

theorem filter_of_stronger {α : Type} (l : List α) (p q : α → Bool)
    (h : ∀ a, q a = true → p a = true) : l.filter q = (l.filter p).filter q := by
  induction l with
  | nil => rfl
  | cons a t ih =>
    cases hq : q a with
    | true =>
      have hp := h a hq
      simp [List.filter_cons, hq, hp, ih]
    | false =>
      cases hp : p a <;> simp [List.filter_cons, hq, hp, ih]

theorem filter_length_lt {α : Type} (l : List α) (q : α → Bool) (a : α)
    (ha : a ∈ l) (hqa : q a = false) : (l.filter q).length < l.length := by
  induction l with
  | nil => cases ha
  | cons b t ih =>
    rcases List.mem_cons.mp ha with rfl | hat
    · rw [List.filter_cons, hqa, if_neg Bool.false_ne_true]
      have := List.length_filter_le q t
      simp only [List.length_cons]
      omega
    · cases hqb : q b with
      | true =>
        rw [List.filter_cons, hqb, if_pos rfl]
        have := ih hat
        simp only [List.length_cons]
        omega
      | false =>
        rw [List.filter_cons, hqb, if_neg Bool.false_ne_true]
        have := ih hat
        simp only [List.length_cons]
        omega

/-- The fuel `fs.length` given to `cascadeClosure` by
`deleteFolderRowsCascade` reaches the fixpoint of the `ON DELETE CASCADE`
propagation: a row whose parent is dead is itself dead. Each round that
does not stop adds at least one live folder id, and there are at most
`fs.length` of those. -/
theorem cascade_fix (fs : List Folder) :
    ∀ (n : Nat) (dead : List Nat),
      (fs.filter (fun f => !(dead.contains f.folder_id))).length ≤ n →
      ∀ f ∈ fs, ∀ p, f.parent_folder_id = some p →
        p ∈ cascadeClosure fs n dead → f.folder_id ∈ cascadeClosure fs n dead := by
  intro n
  induction n with
  | zero =>
    intro dead hlen f hf p hp hpc
    have hfil : fs.filter (fun f => !(dead.contains f.folder_id)) = [] :=
      List.length_eq_zero.mp (Nat.le_zero.mp hlen)
    show f.folder_id ∈ dead
    by_contra hnot
    have hc : dead.contains f.folder_id = false := by
      cases hcc : dead.contains f.folder_id with
      | false => rfl
      | true => exact absurd (List.mem_of_elem_eq_true hcc) hnot
    have hmem : f ∈ fs.filter (fun f => !(dead.contains f.folder_id)) :=
      List.mem_filter.mpr ⟨hf, by rw [hc]; rfl⟩
    rw [hfil] at hmem
    exact absurd hmem (List.not_mem_nil f)
  | succ n ih =>
    intro dead hlen f hf p hp hpc
    set more := (fs.filter (fun f =>
        !(dead.contains f.folder_id) &&
        (match f.parent_folder_id with
         | some q => dead.contains q
         | none => false))).map Folder.folder_id with hmo
    cases hme : more.isEmpty with
    | true =>
      have heq : cascadeClosure fs (n + 1) dead = dead := by
        rw [cascadeClosure]
        rw [← hmo, hme, if_pos rfl]
      rw [heq] at hpc ⊢
      by_contra hnot
      have hcf : dead.contains f.folder_id = false := by
        cases hcc : dead.contains f.folder_id with
        | false => rfl
        | true => exact absurd (List.mem_of_elem_eq_true hcc) hnot
      have hcp : dead.contains p = true := List.elem_eq_true_of_mem hpc
      have hfm : f ∈ fs.filter (fun f =>
          !(dead.contains f.folder_id) &&
          (match f.parent_folder_id with
           | some q => dead.contains q
           | none => false)) := by
        refine List.mem_filter.mpr ⟨hf, ?_⟩
        rw [hcf, hp]
        simp [hcp, hpc]
      have hin : f.folder_id ∈ more := hmo ▸ List.mem_map_of_mem Folder.folder_id hfm
      have hnil : more = [] := by
        cases hM : more with
        | nil => rfl
        | cons a t =>
          rw [hM] at hme
          exact absurd hme (by simp)
      rw [hnil] at hin
      exact absurd hin (List.not_mem_nil _)
    | false =>
      have heq : cascadeClosure fs (n + 1) dead =
          cascadeClosure fs n (dead ++ more) := by
        rw [cascadeClosure]
        rw [← hmo, hme, if_neg Bool.false_ne_true]
      rw [heq] at hpc ⊢
      apply ih (dead ++ more) ?_ f hf p hp hpc
      -- the recursive fuel bound: the new dead set kills at least one more row
      have hstrong : ∀ a : Folder,
          (!((dead ++ more).contains a.folder_id)) = true →
          (!(dead.contains a.folder_id)) = true := by
        intro a ha
        cases hcc : dead.contains a.folder_id with
        | false => rfl
        | true =>
          exfalso
          have hmm : a.folder_id ∈ dead ++ more :=
            List.mem_append_left _ (List.mem_of_elem_eq_true hcc)
          have hee : (dead ++ more).contains a.folder_id = true :=
            List.elem_eq_true_of_mem hmm
          rw [hee] at ha
          exact absurd ha (by simp)
      have hl0 : fs.filter (fun f =>
          !(dead.contains f.folder_id) &&
          (match f.parent_folder_id with
           | some q => dead.contains q
           | none => false)) ≠ [] := by
        intro h0
        rw [hmo, h0] at hme
        exact absurd hme (by simp)
      obtain ⟨g, hgmem⟩ := List.exists_mem_of_ne_nil _ hl0
      have hgfs : g ∈ fs := List.mem_of_mem_filter hgmem
      have hgpred := List.of_mem_filter hgmem
      have hglive : (!(dead.contains g.folder_id)) = true :=
        ((Bool.and_eq_true _ _).mp hgpred).1
      have hgin : g.folder_id ∈ more :=
        hmo ▸ List.mem_map_of_mem Folder.folder_id hgmem
      have hgdead : ((dead ++ more).contains g.folder_id) = true :=
        List.elem_eq_true_of_mem (List.mem_append_right _ hgin)
      have hgq : (fun a : Folder => !((dead ++ more).contains a.folder_id)) g =
          false := by
        simp only []
        rw [hgdead]
        rfl
      have he1 : fs.filter (fun a : Folder => !((dead ++ more).contains a.folder_id)) =
          (fs.filter (fun a : Folder => !(dead.contains a.folder_id))).filter
            (fun a : Folder => !((dead ++ more).contains a.folder_id)) :=
        filter_of_stronger fs _ _ hstrong
      have he2 : ((fs.filter (fun a : Folder => !(dead.contains a.folder_id))).filter
          (fun a : Folder => !((dead ++ more).contains a.folder_id))).length <
          (fs.filter (fun a : Folder => !(dead.contains a.folder_id))).length := by
        apply filter_length_lt _ _ g
        · exact List.mem_filter.mpr ⟨hgfs, hglive⟩
        · exact hgq
      rw [he1]
      omega

theorem cascade_preserves_good (fs : List Folder) (seed : List Nat)
    (hg : GoodTable fs) :
    GoodTable (fs.filter (fun f =>
      !((cascadeClosure fs fs.length seed).contains f.folder_id))) := by
  apply GoodTable_filter fs _ hg
  intro f hf hpf p hp g hgmem hgid
  cases hcp : (cascadeClosure fs fs.length seed).contains p with
  | false =>
    rw [hgid, hcp]
    rfl
  | true =>
    exfalso
    have hpd : p ∈ cascadeClosure fs fs.length seed :=
      List.mem_of_elem_eq_true hcp
    have hfd := cascade_fix fs fs.length seed
      (List.length_filter_le _ _) f hf p hp hpd
    have hcf : (cascadeClosure fs fs.length seed).contains f.folder_id = true :=
      List.elem_eq_true_of_mem hfd
    rw [hcf] at hpf
    exact absurd hpf (by simp)

theorem deleteFolderRowsCascade_good (fs : List Folder) (fls : List FileRow)
    (seed : List Nat) (hg : GoodTable fs) :
    GoodTable (deleteFolderRowsCascade fs fls seed).1 := by
  unfold deleteFolderRowsCascade
  exact cascade_preserves_good fs seed hg

theorem deleteFolder_good (db : DB) (u fid : Nat) (hg : GoodTable db.folders) :
    GoodTable (deleteFolder db u fid false).2.1.folders := by
  unfold deleteFolder
  cases hfind : db.folders.find? (fun f => f.folder_id == fid && f.user_id == u) with
  | none => exact hg
  | some folder =>
    dsimp only
    rw [if_neg Bool.false_ne_true]
    refine deleteFolderRowsCascade_good _ [] _ ?_
    rw [deleteDirectFiles_folders]
    by_cases hempty : ((collectSubfolderIds db.folders
        (db.folders.length + 1) fid).isEmpty) = true
    · rw [if_pos hempty]
      exact hg
    · rw [if_neg hempty]
      exact deleteFolderRowsCascade_good _ _ _ hg

/-- Owner homogeneity along ancestor chains: every code path that sets a
parent checks it belongs to the same user, so a chain stays within one
owner's forest. -/
theorem owner_chain (fs : List Folder) (hnd : (ids fs).Nodup)
    (hso : ∀ f ∈ fs, ∀ p, f.parent_folder_id = some p →
      ∀ g ∈ fs, g.folder_id = p → g.user_id = f.user_id) :
    ∀ (k x y : Nat) (g h : Folder), ancK fs k x = some y →
      rowOf fs x = some g → rowOf fs y = some h → h.user_id = g.user_id := by
  intro k
  induction k with
  | zero =>
    intro x y g h hchain hg hh
    rw [ancK_zero] at hchain
    have hxy : x = y := Option.some.inj hchain
    subst hxy
    rw [hg] at hh
    rw [Option.some.inj hh]
  | succ k ih =>
    intro x y g h hchain hg hh
    rw [ancK_succ] at hchain
    revert hchain
    cases hp : parentStep fs x with
    | none => intro hchain; exact absurd hchain (by simp)
    | some p =>
      intro hchain
      have hchain2 : ancK fs k p = some y := hchain
      have hgp : g.parent_folder_id = some p := by
        unfold parentStep at hp
        rw [hg, Option.some_bind] at hp
        exact hp
      have hgmem := (rowOf_mem hg).1
      cases k with
      | zero =>
        rw [ancK_zero] at hchain2
        have hpy : p = y := Option.some.inj hchain2
        subst hpy
        rcases rowOf_mem hh with ⟨hhmem, hhid⟩
        exact hso g hgmem p hgp h hhmem hhid
      | succ k2 =>
        have hpmem : p ∈ ids fs :=
          mem_ids_of_ancK_pos fs (by omega) hchain2
        rcases rowOf_of_mem_ids hpmem with ⟨gp, hgprow⟩
        rcases rowOf_mem hgprow with ⟨hgpmem, hgpid⟩
        have h1 : h.user_id = gp.user_id := ih p y gp h hchain2 hgprow hh
        have h2 : gp.user_id = g.user_id := hso g hgmem p hgp gp hgpmem hgpid
        rw [h1, h2]

theorem applyOp_good (db : DB) (op : Op) (hg : GoodTable db.folders) :
    GoodTable (applyOp db op).folders := by
  cases op with
  | opCreate u nm p => exact createFolder_good db u nm p hg
  | opRename u fid nm => exact renameFolder_good db u fid nm hg
  | opMove u fid np => exact moveFolder_good db u fid np hg
  | opDelete u fid => exact deleteFolder_good db u fid hg

theorem applyOps_good (ops : List Op) (db : DB) (hg : GoodTable db.folders) :
    GoodTable (applyOps db ops).folders := by
  induction ops generalizing db with
  | nil => exact hg
  | cons op rest ih => exact ih (applyOp db op) (applyOp_good db op hg)

theorem emptyDB_good : GoodTable emptyDB.folders := by
  constructor
  · constructor
    · simp [ids, emptyDB]
    · intro f hf
      exact absurd hf (List.not_mem_nil f)
    · intro f hf
      exact absurd hf (List.not_mem_nil f)
    · intro f hf
      exact absurd hf (List.not_mem_nil f)
  · intro x k h
    rw [ancK_succ] at h
    have hps : parentStep emptyDB.folders x = none := rfl
    rw [hps] at h
    exact absurd h (by simp)

/-- C3: for every owner and every reachable folder state (well-formed and
acyclic, which the second conjunct shows is an invariant of the reachable
states), `moveFolder` rejects a destination equal to the moved folder or
lying anywhere in its subtree with the InvalidOperation errors of the
source ("Cannot move folder into itself" / "... into its own subfolder")
and leaves the store unchanged; consequently the parent relation is
acyclic after every sequence of createFolder, renameFolder, moveFolder and
deleteFolder operations. -/
theorem C3_move_rejected_in_own_subtree_and_forest_stays_acyclic :
    (∀ (db : DB) (u fid : Nat) (np : Option Nat) (folder : Folder),
      WF db.folders → Acyclic db.folders →
      db.folders.find? (fun f => f.folder_id == fid && f.user_id == u) =
        some folder →
      (np = some fid ∨ ∃ q k, np = some q ∧ ancK db.folders k q = some fid) →
      ((moveFolder db u fid np).1 = Except.error Err.cannotMoveToItself ∨
       (moveFolder db u fid np).1 = Except.error Err.cannotMoveToOwnSubfolder) ∧
      (moveFolder db u fid np).2.1 = db) ∧
    (∀ ops : List Op, Acyclic (applyOps emptyDB ops).folders) := by
  constructor
  · intro db u fid np folder hwf hac hfind hdest
    unfold moveFolder
    rw [hfind]
    dsimp only
    by_cases hself : (some fid == np) = true
    · rw [if_pos hself]
      exact ⟨Or.inl rfl, rfl⟩
    · rw [if_neg hself]
      rcases hdest with hd1 | ⟨q, k, hnp, hchain⟩
      · exact absurd (by rw [hd1]; simp) hself
      · subst hnp
        have hqfid : q ≠ fid := by
          intro hqf
          apply hself
          rw [hqf]
          simp
        have hk1 : 1 ≤ k := by
          rcases Nat.eq_zero_or_pos k with rfl | hpos
          · rw [ancK_zero] at hchain
            exact absurd (Option.some.inj hchain) hqfid
          · exact hpos
        have hqmem : q ∈ ids db.folders :=
          mem_ids_of_ancK_pos db.folders hk1 hchain
        have hqpos : 0 < q := by
          rcases List.mem_map.mp hqmem with ⟨g, hgmem, hgid⟩
          have := hwf.pos g hgmem
          omega
        rw [if_pos (by simp [truthy]; omega)]
        dsimp only [Option.getD]
        -- the destination exists and belongs to the same owner
        rcases rowOf_of_mem_ids hqmem with ⟨g, hgrow⟩
        rcases rowOf_mem hgrow with ⟨hgmem, hgid⟩
        have hfmem : folder ∈ db.folders := List.mem_of_find?_eq_some hfind
        have hfpred := List.find?_some hfind
        have hffid : folder.folder_id = fid :=
          eq_of_beq ((Bool.and_eq_true _ _).mp hfpred).1
        have hfuser : folder.user_id = u :=
          eq_of_beq ((Bool.and_eq_true _ _).mp hfpred).2
        have hfrow : rowOf db.folders fid = some folder := by
          rw [← hffid]
          exact rowOf_eq_of_mem hwf.nodup hfmem
        have hguser : g.user_id = u := by
          have := owner_chain db.folders hwf.nodup hwf.sameOwner k q fid g folder
            hchain hgrow hfrow
          rw [← hfuser, this]
        have hgfilter : g ∈ db.folders.filter (fun f =>
            f.folder_id == q && f.user_id == u) :=
          List.mem_filter.mpr ⟨hgmem, by simp [hgid, hguser]⟩
        have hne : db.folders.filter (fun f =>
            f.folder_id == q && f.user_id == u) ≠ [] := by
          intro he
          rw [he] at hgfilter
          exact absurd hgfilter (List.not_mem_nil g)
        rw [if_neg (by
          intro hemp
          apply hne
          cases hl : db.folders.filter (fun f => f.folder_id == q && f.user_id == u) with
          | nil => rfl
          | cons a t =>
            rw [hl] at hemp
            exact absurd hemp (by simp))]
        have hbound : k ≤ db.folders.length :=
          ancK_length_bound db.folders hwf.closed hac hqmem hchain
        rw [if_pos (isDescendant_of_anc db.folders k q fid hchain
          (db.folders.length + 1) (by omega))]
        exact ⟨Or.inr rfl, rfl⟩
  · intro ops
    exact (applyOps_good ops emptyDB emptyDB_good).2

theorem C3_move_rejected_witness :
    ((moveFolder moveDemoDB 7 1 (some 2)).1 = Except.error Err.cannotMoveToItself ∨
     (moveFolder moveDemoDB 7 1 (some 2)).1 =
       Except.error Err.cannotMoveToOwnSubfolder) ∧
    (moveFolder moveDemoDB 7 1 (some 2)).2.1 = moveDemoDB :=
  C3_move_rejected_in_own_subtree_and_forest_stays_acyclic.1 moveDemoDB 7 1
    (some 2) ⟨1, 7, none, "A"⟩ (WF_of_WFB _ (by decide))
    (acyclic_of_rootedB _ (by decide)) rfl (Or.inr ⟨2, 1, rfl, rfl⟩)

/-! ### The folder tree of `getFolderTree`. -/

theorem mem_nodesOf_self :
    ∀ (ts : List TreeNode) (t : TreeNode), t ∈ ts → t ∈ nodesOf ts := by
  intro ts
  induction ts with
  | nil => intro t ht; exact absurd ht (List.not_mem_nil t)
  | cons s rest ih =>
    intro t ht
    cases s with
    | mk i nm lv cs =>
      rw [nodesOf]
      rcases List.mem_cons.mp ht with rfl | ht2
      · exact List.mem_cons_self _ _
      · exact List.mem_cons_of_mem _ (List.mem_append_right _ (ih t ht2))

theorem mem_nodesOf_child :
    ∀ (ts : List TreeNode) (s t : TreeNode), s ∈ ts →
      t ∈ nodesOf s.children → t ∈ nodesOf ts := by
  intro ts
  induction ts with
  | nil => intro s t hs _; exact absurd hs (List.not_mem_nil s)
  | cons s0 rest ih =>
    intro s t hs ht
    cases s0 with
    | mk i nm lv cs =>
      rw [nodesOf]
      rcases List.mem_cons.mp hs with rfl | hs2
      · exact List.mem_cons_of_mem _ (List.mem_append_left _ ht)
      · exact List.mem_cons_of_mem _ (List.mem_append_right _ (ih s t hs2 ht))

theorem nodesOf_map_mk (fl : List Folder) (fuel : Nat) (lv : Nat) :
    ∀ rows : List Folder,
      nodesOf (rows.map (fun f => TreeNode.mk f.folder_id f.name lv
        (buildTree fl fuel (some f.folder_id)))) =
      rows.flatMap (fun f => TreeNode.mk f.folder_id f.name lv
        (buildTree fl fuel (some f.folder_id)) ::
        nodesOf (buildTree fl fuel (some f.folder_id))) := by
  intro rows
  induction rows with
  | nil => simp [nodesOf]
  | cons f rest ih =>
    simp only [List.map_cons, List.flatMap_cons]
    rw [nodesOf, ih]
    simp [List.cons_append]

/-- Soundness of `buildTree`: every id in the built forest is a folder id
of the table, and lies strictly below the root of the call along the
parent chain. -/
theorem buildTree_sound (fl : List Folder) (hnd : (ids fl).Nodup) :
    ∀ (fuel : Nat) (pid : Option Nat) (z : Nat),
      z ∈ flattenNodes (buildTree fl fuel pid) →
      z ∈ ids fl ∧ ∀ p, pid = some p → ∃ j, ancK fl (j + 1) z = some p := by
  intro fuel
  induction fuel with
  | zero =>
    intro pid z h
    exact absurd h (by simp [flattenNodes, buildTree, nodesOf])
  | succ fuel ih =>
    intro pid z h
    rw [flattenNodes, buildTree, nodesOf_map_mk] at h
    rcases List.mem_map.mp h with ⟨t, htmem, htid⟩
    rcases List.mem_flatMap.mp htmem with ⟨f, hfrow, htchunk⟩
    have hffl : f ∈ fl := List.mem_of_mem_filter hfrow
    have hfpidb := List.of_mem_filter hfrow
    have hfpid : f.parent_folder_id = pid := eq_of_beq hfpidb
    rcases List.mem_cons.mp htchunk with rfl | hsub
    · have hz : f.folder_id = z := htid
      constructor
      · exact hz ▸ List.mem_map_of_mem Folder.folder_id hffl
      · intro p hp
        refine ⟨0, ?_⟩
        have hrow : rowOf fl z = some f := hz ▸ rowOf_eq_of_mem hnd hffl
        show ancK fl 1 z = some p
        rw [ancK_one]
        unfold parentStep
        rw [hrow, Option.some_bind, hfpid, hp]
    · have hzsub : z ∈ flattenNodes (buildTree fl fuel (some f.folder_id)) := by
        rw [flattenNodes]
        exact htid ▸ List.mem_map_of_mem TreeNode.id hsub
      rcases ih (some f.folder_id) z hzsub with ⟨hzids, hchain⟩
      rcases hchain f.folder_id rfl with ⟨j1, hj1⟩
      refine ⟨hzids, ?_⟩
      intro p hp
      refine ⟨j1 + 1, ?_⟩
      have hstep : ancK fl 1 f.folder_id = some p := by
        rw [ancK_one]
        unfold parentStep
        rw [rowOf_eq_of_mem hnd hffl, Option.some_bind, hfpid, hp]
      have hadd := ancK_add fl (j1 + 1) 1 z
      rw [hj1, Option.some_bind, hstep] at hadd
      exact hadd

/-- Completeness of `buildTree`: a row with an ancestor chain of length
`j` ending in a row whose parent is the call's root appears as a node of
the forest, with its children built from the remaining fuel. -/
theorem buildTree_complete (fl : List Folder) (hnd : (ids fl).Nodup) :
    ∀ (fuel j : Nat) (g : Folder) (z : Nat) (gz : Folder) (pid : Option Nat),
      g ∈ fl → ancK fl j g.folder_id = some z → rowOf fl z = some gz →
      gz.parent_folder_id = pid → j + 1 ≤ fuel →
      ∃ t ∈ nodesOf (buildTree fl fuel pid), TreeNode.id t = g.folder_id ∧
        TreeNode.children t = buildTree fl (fuel - j - 1) (some g.folder_id) := by
  intro fuel
  induction fuel with
  | zero =>
    intro j g z gz pid _ _ _ _ hle
    exact absurd hle (by omega)
  | succ fuel ih =>
    intro j g z gz pid hg hchain hrow hpar hle
    cases j with
    | zero =>
      rw [ancK_zero] at hchain
      have hz : g.folder_id = z := Option.some.inj hchain
      subst hz
      have hgz : g = gz := by
        have hro := rowOf_eq_of_mem hnd hg
        rw [hro] at hrow
        exact Option.some.inj hrow
      rw [← hgz] at hpar
      have hmem : g ∈ fl.filter (fun f => f.parent_folder_id == pid) :=
        List.mem_filter.mpr ⟨hg, by rw [hpar]; simp⟩
      rw [buildTree]
      refine ⟨TreeNode.mk g.folder_id g.name (if pid == none then 0 else 1)
        (buildTree fl fuel (some g.folder_id)), ?_, rfl, rfl⟩
      exact mem_nodesOf_self _ _ (List.mem_map.mpr ⟨g, hmem, rfl⟩)
    | succ j2 =>
      have hadd := ancK_add fl j2 1 g.folder_id
      rw [hchain] at hadd
      cases hy : ancK fl j2 g.folder_id with
      | none =>
        rw [hy] at hadd
        exact absurd hadd (by simp)
      | some y =>
        rw [hy, Option.some_bind, ancK_one] at hadd
        have hstep : parentStep fl y = some z := hadd.symm
        have hyrow : ∃ gy, rowOf fl y = some gy ∧
            gy.parent_folder_id = some z := by
          unfold parentStep at hstep
          cases hr : rowOf fl y with
          | none => rw [hr] at hstep; exact absurd hstep (by simp)
          | some gy =>
            rw [hr, Option.some_bind] at hstep
            exact ⟨gy, rfl, hstep⟩
        rcases hyrow with ⟨gy, hgyrow, hgypar⟩
        rcases ih j2 g y gy (some z) hg hy hgyrow hgypar (by omega) with
          ⟨t, htmem, htid, htch⟩
        have hgzfl : gz ∈ fl := (rowOf_mem hrow).1
        have hgzid : gz.folder_id = z := (rowOf_mem hrow).2
        have hgzfilter : gz ∈ fl.filter (fun f => f.parent_folder_id == pid) :=
          List.mem_filter.mpr ⟨hgzfl, by rw [hpar]; simp⟩
        rw [buildTree]
        refine ⟨t, ?_, htid, ?_⟩
        · refine mem_nodesOf_child _ (TreeNode.mk gz.folder_id gz.name
            (if pid == none then 0 else 1)
            (buildTree fl fuel (some gz.folder_id))) t ?_ ?_
          · exact List.mem_map.mpr ⟨gz, hgzfilter, rfl⟩
          · show t ∈ nodesOf (buildTree fl fuel (some gz.folder_id))
            rw [hgzid]
            exact htmem
        · rw [htch]
          congr 1
          omega

theorem anc_hit_lt_false (fl : List Folder) (hnd : (ids fl).Nodup)
    (hac : Acyclic fl) (pid : Option Nat) (f1 f2 : Folder)
    (h1 : f1 ∈ fl) (h2 : f2 ∈ fl)
    (hp1 : f1.parent_folder_id = pid) (hp2 : f2.parent_folder_id = pid)
    (z a b : Nat) (ha : ancK fl a z = some f1.folder_id)
    (hb : ancK fl b z = some f2.folder_id) (hab : a < b) : False := by
  have hsplit : ancK fl (a + (b - a)) z = some f2.folder_id := by
    rw [show a + (b - a) = b from by omega]
    exact hb
  rw [ancK_add, ha, Option.some_bind] at hsplit
  cases pid with
  | none =>
    have hps : parentStep fl f1.folder_id = none := by
      unfold parentStep
      rw [rowOf_eq_of_mem hnd h1, Option.some_bind, hp1]
    rw [show b - a = (b - a - 1) + 1 from by omega, ancK_succ, hps] at hsplit
    exact absurd hsplit (by simp)
  | some p =>
    have hps : parentStep fl f1.folder_id = some p := by
      unfold parentStep
      rw [rowOf_eq_of_mem hnd h1, Option.some_bind, hp1]
    have hps2 : ancK fl 1 f2.folder_id = some p := by
      rw [ancK_one]
      unfold parentStep
      rw [rowOf_eq_of_mem hnd h2, Option.some_bind, hp2]
    rw [show b - a = (b - a - 1) + 1 from by omega, ancK_succ, hps] at hsplit
    have hsplit2 : ancK fl (b - a - 1) p = some f2.folder_id := hsplit
    have hcyc := ancK_add fl (b - a - 1) 1 p
    rw [hsplit2, Option.some_bind, hps2] at hcyc
    exact hac p (b - a - 1) hcyc

theorem anc_two_hits_false (fl : List Folder) (hnd : (ids fl).Nodup)
    (hac : Acyclic fl) (pid : Option Nat) (f1 f2 : Folder)
    (h1 : f1 ∈ fl) (h2 : f2 ∈ fl)
    (hp1 : f1.parent_folder_id = pid) (hp2 : f2.parent_folder_id = pid)
    (hne : f1.folder_id ≠ f2.folder_id)
    (z a b : Nat) (ha : ancK fl a z = some f1.folder_id)
    (hb : ancK fl b z = some f2.folder_id) : False := by
  rcases Nat.lt_trichotomy a b with hab | hab | hab
  · exact anc_hit_lt_false fl hnd hac pid f1 f2 h1 h2 hp1 hp2 z a b ha hb hab
  · subst hab
    rw [ha] at hb
    exact hne (Option.some.inj hb)
  · exact anc_hit_lt_false fl hnd hac pid f2 f1 h2 h1 hp2 hp1 z b a hb ha hab

/-- Each folder id appears at most once in the built forest: the flattened
id list has no duplicates. -/
theorem buildTree_nodup (fl : List Folder) (hnd : (ids fl).Nodup)
    (hac : Acyclic fl) :
    ∀ (fuel : Nat) (pid : Option Nat),
      (flattenNodes (buildTree fl fuel pid)).Nodup := by
  intro fuel
  induction fuel with
  | zero => intro pid; simp [flattenNodes, buildTree, nodesOf]
  | succ fuel ih =>
    intro pid
    have hchunk : flattenNodes (buildTree fl (fuel + 1) pid) =
        (fl.filter (fun f => f.parent_folder_id == pid)).flatMap
          (fun f => f.folder_id ::
            flattenNodes (buildTree fl fuel (some f.folder_id))) := by
      rw [flattenNodes, buildTree, nodesOf_map_mk, List.map_flatMap]
      rfl
    rw [hchunk]
    rw [List.nodup_flatMap]
    constructor
    · intro f hfmem
      rw [List.nodup_cons]
      constructor
      · intro hin
        rcases (buildTree_sound fl hnd fuel (some f.folder_id)
          f.folder_id hin).2 f.folder_id rfl with ⟨j, hcyc⟩
        exact hac f.folder_id j hcyc
      · exact ih (some f.folder_id)
    · have hrowsnd : (fl.filter (fun f => f.parent_folder_id == pid)).Nodup :=
        (List.Nodup.of_map Folder.folder_id hnd).filter _
      refine List.Pairwise.imp_of_mem ?_ hrowsnd
      intro f1 f2 hm1 hm2 hne12
      have hf1fl : f1 ∈ fl := List.mem_of_mem_filter hm1
      have hf2fl : f2 ∈ fl := List.mem_of_mem_filter hm2
      have hb1 := List.of_mem_filter hm1
      have hb2 := List.of_mem_filter hm2
      have hp1 : f1.parent_folder_id = pid := eq_of_beq hb1
      have hp2 : f2.parent_folder_id = pid := eq_of_beq hb2
      have hidne : f1.folder_id ≠ f2.folder_id := by
        intro hide
        exact hne12 (List.inj_on_of_nodup_map hnd hf1fl hf2fl hide)
      intro z hz1 hz2
      have hhit1 : ∃ a, ancK fl a z = some f1.folder_id := by
        rcases List.mem_cons.mp hz1 with rfl | hsub
        · exact ⟨0, by rw [ancK_zero]⟩
        · rcases (buildTree_sound fl hnd fuel (some f1.folder_id) z hsub).2
            f1.folder_id rfl with ⟨j, hj⟩
          exact ⟨j + 1, hj⟩
      have hhit2 : ∃ b, ancK fl b z = some f2.folder_id := by
        rcases List.mem_cons.mp hz2 with rfl | hsub
        · exact ⟨0, by rw [ancK_zero]⟩
        · rcases (buildTree_sound fl hnd fuel (some f2.folder_id) z hsub).2
            f2.folder_id rfl with ⟨j, hj⟩
          exact ⟨j + 1, hj⟩
      rcases hhit1 with ⟨a, ha⟩
      rcases hhit2 with ⟨b, hb⟩
      exact anc_two_hits_false fl hnd hac pid f1 f2 hf1fl hf2fl hp1 hp2
        hidne z a b ha hb

/-- In an acyclic closed table every folder has a root ancestor within
`fs.length` steps. -/
theorem exists_root_chain (fl : List Folder)
    (hcl : ∀ f ∈ fl, ∀ p, f.parent_folder_id = some p → p ∈ ids fl)
    (hac : Acyclic fl) (x : Nat) (hx : x ∈ ids fl) :
    ∃ j z gz, ancK fl j x = some z ∧ rowOf fl z = some gz ∧
      gz.parent_folder_id = none ∧ j ≤ fl.length := by
  have hdead : ancK fl (fl.length + 1) x = none := ancK_dies fl hcl hac hx
  have hex : ∃ i, ancK fl i x = none := ⟨fl.length + 1, hdead⟩
  have hspec := Nat.find_spec hex
  have hpos : 1 ≤ Nat.find hex := by
    by_contra hcon
    have h0 : Nat.find hex = 0 := by omega
    rw [h0, ancK_zero] at hspec
    exact absurd hspec (by simp)
  have hjlt : Nat.find hex - 1 < Nat.find hex := by omega
  have halive := Nat.find_min hex hjlt
  cases hzv : ancK fl (Nat.find hex - 1) x with
  | none => exact absurd hzv halive
  | some z =>
    have hnext : ancK fl ((Nat.find hex - 1) + 1) x = none := by
      rw [show (Nat.find hex - 1) + 1 = Nat.find hex from by omega]
      exact hspec
    have hadd := ancK_add fl (Nat.find hex - 1) 1 x
    rw [hzv, Option.some_bind, ancK_one, hnext] at hadd
    have hps : parentStep fl z = none := hadd.symm
    have hzids : z ∈ ids fl := ancK_mem_ids fl hcl (Nat.find hex - 1) x z hx hzv
    rcases rowOf_of_mem_ids hzids with ⟨gz, hgz⟩
    have hgzpar : gz.parent_folder_id = none := by
      unfold parentStep at hps
      rw [hgz, Option.some_bind] at hps
      exact hps
    refine ⟨Nat.find hex - 1, z, gz, hzv, hgz, hgzpar, ?_⟩
    have hle : Nat.find hex ≤ fl.length + 1 := Nat.find_le hdead
    omega

theorem parentStep_subset_imp (fs fl : List Folder) (hnd : (ids fs).Nodup)
    (hsub : ∀ g ∈ fl, g ∈ fs) (y q : Nat)
    (h : parentStep fl y = some q) : parentStep fs y = some q := by
  unfold parentStep at h ⊢
  revert h
  cases hg : rowOf fl y with
  | none => intro h; exact absurd h (by simp)
  | some g =>
    intro h
    rcases rowOf_mem hg with ⟨hgm, hgid⟩
    rw [← hgid, rowOf_eq_of_mem hnd (hsub g hgm)]
    exact h

theorem ancK_subset_imp (fs fl : List Folder) (hnd : (ids fs).Nodup)
    (hsub : ∀ g ∈ fl, g ∈ fs) (k : Nat) :
    ∀ x y, ancK fl k x = some y → ancK fs k x = some y := by
  induction k with
  | zero => intro x y h; exact h
  | succ k ih =>
    intro x y h
    rw [ancK_succ] at h ⊢
    revert h
    cases hp : parentStep fl x with
    | none => intro h; exact absurd h (by simp)
    | some p =>
      intro h
      rw [parentStep_subset_imp fs fl hnd hsub x p hp]
      exact ih p y h

theorem acyclic_subset (fs fl : List Folder) (hnd : (ids fs).Nodup)
    (hsub : ∀ g ∈ fl, g ∈ fs) (hac : Acyclic fs) : Acyclic fl := by
  intro x k hcon
  exact hac x k (ancK_subset_imp fs fl hnd hsub (k + 1) x x hcon)

/-- C8: on a cache miss, for every owner of a well-formed acyclic table,
`getFolderTree` returns a forest whose flattened id list has no
duplicates and contains exactly the owner's folder ids; the top level is
exactly the owner's root folders, and every non-root folder of the owner
appears in the children list of the node of its actual parent. -/
theorem C8_folder_tree_flatten (db : DB) (u : Nat)
    (hwf : WF db.folders) (hac : Acyclic db.folders)
    (hmiss : cacheGet db.cache (CKey.userFolderTree u) = none) :
    ∃ tree : List TreeNode,
      (getFolderTree db u).1 = Except.ok (CVal.vTree tree) ∧
      (flattenNodes tree).Nodup ∧
      (∀ z, z ∈ flattenNodes tree ↔
        ∃ g, g ∈ db.folders ∧ g.user_id = u ∧ g.folder_id = z) ∧
      (∀ t ∈ tree, ∃ g, g ∈ db.folders ∧ g.user_id = u ∧
        g.folder_id = TreeNode.id t ∧ g.parent_folder_id = none) ∧
      (∀ g, g ∈ db.folders → g.user_id = u → g.parent_folder_id = none →
        g.folder_id ∈ tree.map TreeNode.id) ∧
      (∀ g, g ∈ db.folders → g.user_id = u → ∀ p, g.parent_folder_id = some p →
        ∃ t ∈ nodesOf tree, TreeNode.id t = p ∧
          g.folder_id ∈ (TreeNode.children t).map TreeNode.id) := by
  set fl := (db.folders.filter (fun f => f.user_id == u)).mergeSort
    (fun a b => a.name ≤ b.name) with hfldef
  have hperm : List.Perm fl (db.folders.filter (fun f => f.user_id == u)) :=
    List.mergeSort_perm _ _
  have hmemiff : ∀ g : Folder, g ∈ fl ↔ (g ∈ db.folders ∧ g.user_id = u) := by
    intro g
    rw [hperm.mem_iff, List.mem_filter]
    constructor
    · rintro ⟨h1, h2⟩
      exact ⟨h1, eq_of_beq h2⟩
    · rintro ⟨h1, h2⟩
      exact ⟨h1, by rw [h2]; simp⟩
  have hndfl : (ids fl).Nodup := by
    have hsubl : List.Sublist (ids (db.folders.filter (fun f => f.user_id == u)))
        (ids db.folders) := List.Sublist.map _ (List.filter_sublist db.folders)
    have hnd2 : (ids (db.folders.filter (fun f => f.user_id == u))).Nodup :=
      List.Nodup.sublist hsubl hwf.nodup
    exact ((hperm.map Folder.folder_id).nodup_iff).mpr hnd2
  have hsubfl : ∀ g ∈ fl, g ∈ db.folders := fun g hg => ((hmemiff g).mp hg).1
  have hacfl : Acyclic fl := acyclic_subset db.folders fl hwf.nodup hsubfl hac
  have hclfl : ∀ f ∈ fl, ∀ p, f.parent_folder_id = some p → p ∈ ids fl := by
    intro f hf p hp
    have hffs : f ∈ db.folders := hsubfl f hf
    have hfu : f.user_id = u := ((hmemiff f).mp hf).2
    have hpids : p ∈ ids db.folders := hwf.closed f hffs p hp
    rcases List.mem_map.mp hpids with ⟨gp, hgpm, hgpid⟩
    have hgpu : gp.user_id = u := by
      rw [hwf.sameOwner f hffs p hp gp hgpm hgpid, hfu]
    have hgpfl : gp ∈ fl := (hmemiff gp).mpr ⟨hgpm, hgpu⟩
    exact hgpid ▸ List.mem_map_of_mem Folder.folder_id hgpfl
  refine ⟨buildTree fl (fl.length + 1) none, ?_, ?_, ?_, ?_, ?_, ?_⟩
  · unfold getFolderTree
    rw [hmiss]
  · exact buildTree_nodup fl hndfl hacfl _ none
  · intro z
    constructor
    · intro hz
      have hzid := (buildTree_sound fl hndfl _ none z hz).1
      rcases List.mem_map.mp hzid with ⟨g, hgfl, hgid⟩
      rcases (hmemiff g).mp hgfl with ⟨hgm, hgu⟩
      exact ⟨g, hgm, hgu, hgid⟩
    · rintro ⟨g, hgm, hgu, hgz⟩
      have hgfl : g ∈ fl := (hmemiff g).mpr ⟨hgm, hgu⟩
      have hgids : g.folder_id ∈ ids fl :=
        List.mem_map_of_mem Folder.folder_id hgfl
      rcases exists_root_chain fl hclfl hacfl g.folder_id hgids with
        ⟨j, z2, gz, hchain, hrow, hpar, hjle⟩
      rcases buildTree_complete fl hndfl (fl.length + 1) j g z2 gz none hgfl
        hchain hrow hpar (by omega) with ⟨t, htm, htid, _⟩
      rw [flattenNodes, ← hgz]
      exact htid ▸ List.mem_map_of_mem TreeNode.id htm
  · intro t ht
    rw [buildTree] at ht
    rcases List.mem_map.mp ht with ⟨f, hfrow, rfl⟩
    have hffl : f ∈ fl := List.mem_of_mem_filter hfrow
    have hfb := List.of_mem_filter hfrow
    have hfnone : f.parent_folder_id = none := eq_of_beq hfb
    rcases (hmemiff f).mp hffl with ⟨hfm, hfu⟩
    exact ⟨f, hfm, hfu, rfl, hfnone⟩
  · intro g hgm hgu hgnone
    have hgfl : g ∈ fl := (hmemiff g).mpr ⟨hgm, hgu⟩
    have hgfilter : g ∈ fl.filter (fun f => f.parent_folder_id == none) :=
      List.mem_filter.mpr ⟨hgfl, by rw [hgnone]; rfl⟩
    rw [buildTree]
    exact List.mem_map.mpr ⟨_, List.mem_map.mpr ⟨g, hgfilter, rfl⟩, rfl⟩
  · intro g hgm hgu p hp
    have hgfl : g ∈ fl := (hmemiff g).mpr ⟨hgm, hgu⟩
    have hpfl : p ∈ ids fl := hclfl g hgfl p hp
    rcases rowOf_of_mem_ids hpfl with ⟨gp, hgprow⟩
    rcases rowOf_mem hgprow with ⟨hgpfl, hgpid⟩
    rcases exists_root_chain fl hclfl hacfl p hpfl with
      ⟨j, z2, gz, hchain, hrow, hpar, hjle⟩
    have hchain2 : ancK fl j gp.folder_id = some z2 := by
      rw [hgpid]
      exact hchain
    rcases buildTree_complete fl hndfl (fl.length + 1) j gp z2 gz none hgpfl
      hchain2 hrow hpar (by omega) with ⟨t, htm, htid, htch⟩
    have hg1 : ancK fl 1 g.folder_id = some p := by
      rw [ancK_one]
      unfold parentStep
      rw [rowOf_eq_of_mem hndfl hgfl, Option.some_bind, hp]
    have hgchain : ancK fl (1 + j) g.folder_id = some z2 := by
      rw [ancK_add, hg1, Option.some_bind]
      exact hchain
    have hbound : 1 + j ≤ fl.length :=
      ancK_length_bound fl hclfl hacfl
        (List.mem_map_of_mem Folder.folder_id hgfl) hgchain
    refine ⟨t, htm, by rw [htid, hgpid], ?_⟩
    rw [htch]
    rw [show fl.length + 1 - j - 1 = (fl.length - j - 1) + 1 from by omega]
    rw [buildTree]
    have hgfilter : g ∈ fl.filter
        (fun f => f.parent_folder_id == some gp.folder_id) :=
      List.mem_filter.mpr ⟨hgfl, by rw [hp, hgpid]; simp⟩
    exact List.mem_map.mpr ⟨_, List.mem_map.mpr ⟨g, hgfilter, rfl⟩, rfl⟩

theorem C8_folder_tree_witness :
    ∃ tree : List TreeNode,
      (getFolderTree moveDemoDB 7).1 = Except.ok (CVal.vTree tree) ∧
      (flattenNodes tree).Nodup ∧
      (∀ z, z ∈ flattenNodes tree ↔
        ∃ g, g ∈ moveDemoDB.folders ∧ g.user_id = 7 ∧ g.folder_id = z) ∧
      (∀ t ∈ tree, ∃ g, g ∈ moveDemoDB.folders ∧ g.user_id = 7 ∧
        g.folder_id = TreeNode.id t ∧ g.parent_folder_id = none) ∧
      (∀ g, g ∈ moveDemoDB.folders → g.user_id = 7 →
        g.parent_folder_id = none → g.folder_id ∈ tree.map TreeNode.id) ∧
      (∀ g, g ∈ moveDemoDB.folders → g.user_id = 7 → ∀ p,
        g.parent_folder_id = some p →
        ∃ t ∈ nodesOf tree, TreeNode.id t = p ∧
          g.folder_id ∈ (TreeNode.children t).map TreeNode.id) :=
  C8_folder_tree_flatten moveDemoDB 7 (WF_of_WFB _ (by decide))
    (acyclic_of_rootedB _ (by decide)) rfl
